import Mathlib

set_option maxHeartbeats 1000000

unseal Rat.add Rat.sub Rat.mul Rat.inv

/-!
Verification development for the `graft` repository.

The graph engine (`src/algorithms/graph.rs`), the lifecycle core
(`src/core/mod.rs`) and the arithmetic parser (`src/core/parser.rs`) are
embedded shallowly.  `f64` values are modelled as `ℚ`: every scenario in the
specification uses small integer-valued quantities on which `f64` arithmetic
is exact.  `petgraph::Graph` is modelled by a list of nodes (a `NodeIndex` is
a position in that list) together with a list of edges in insertion order;
`petgraph` iterates the outgoing edges of a node most-recently-inserted
first, which the model reproduces by reversing the filtered edge list.
`HashMap<usize, NodeIndex>` is modelled as an association list whose most
recent insertion shadows older ones.  Loops are modelled with explicit fuel.
-/

/-- `Nd` from graph.rs: external id, scalar payload, 2-D position
(`Complex64` is modelled as a pair of rationals). -/
structure Nd where
  id : Nat
  val : ℚ
  posx : ℚ
  posy : ℚ
deriving Repr, DecidableEq

/-- `Ed` from graph.rs: capacity `wt` and current `flow`. -/
structure Ed where
  wt : ℚ
  flow : ℚ
deriving Repr, DecidableEq

/-- `Grf` from graph.rs: node arena, edge arena (insertion order, an edge is
`(source index, target index, payload)`), and the external-id index.
`idx_map` insertion prepends, so `List.lookup` sees the newest binding,
matching `HashMap::insert` overwrite semantics. -/
structure Grf where
  nds : List Nd
  eds : List (Nat × Nat × Ed)
  idx_map : List (Nat × Nat)
deriving Repr, DecidableEq

/-- `Grf::new`. -/
def Grf.new : Grf := ⟨[], [], []⟩

/-- `Grf::add_nd`: allocate a node, register the id, return the handle. -/
def Grf.add_nd (g : Grf) (id : Nat) (v x y : ℚ) : Grf × Nat :=
  ({ g with nds := g.nds ++ [⟨id, v, x, y⟩],
            idx_map := (id, g.nds.length) :: g.idx_map }, g.nds.length)

/-- `Grf::add_ed`: look both endpoints up in the id index (the Rust code
indexes the `HashMap` and panics when an id is absent, modelled as `none`)
and append a directed edge with `flow = 0`. -/
def Grf.add_ed (g : Grf) (a b : Nat) (w : ℚ) : Option Grf :=
  match g.idx_map.lookup a, g.idx_map.lookup b with
  | some u, some v => some { g with eds := g.eds ++ [(u, v, ⟨w, 0⟩)] }
  | _, _ => none

/-! ## Lifecycle core (`src/core/mod.rs`)

`Core` holds a `running` flag, a worker count, a bounded event channel
(modelled as the list of sent events) and a byte cache. -/

/-- `Event` from mod.rs. -/
inductive Ev where
  | evStart
  | evStop
  | evError (msg : String)
deriving Repr, DecidableEq

/-- Observable state of `Core` from mod.rs. -/
structure Core where
  running : Bool
  workers : Nat
  events : List Ev
  cache : List (String × List Nat)
deriving Repr, DecidableEq

/-- `Core::new`. -/
def Core.new (workers : Nat) : Core := ⟨false, workers, [], []⟩

/-- `Core::start`: only when not already running, set the flag and send
`Event::Start`. -/
def Core.start (c : Core) : Core :=
  if c.running then c
  else { c with running := true, events := c.events ++ [Ev.evStart] }

/-- `Core::stop`: only when running, clear the flag and send `Event::Stop`. -/
def Core.stop (c : Core) : Core :=
  if c.running then { c with running := false, events := c.events ++ [Ev.evStop] }
  else c

/-- `Core::is_running`. -/
def Core.is_running (c : Core) : Bool := c.running

/-! ## Expression evaluator (`src/core/parser.rs`)

Tokens carry their text as a `List Char`.  The symbol table is an
association list (a fresh `Prs` has an empty one). -/

/-- `TokType` from parser.rs. -/
inductive TokType where
  | tid
  | top
  | tnum
  | tsym
deriving Repr, DecidableEq

/-- `Tok` from parser.rs. -/
structure Tok where
  val : List Char
  pos : Nat
  typ : TokType
deriving Repr, DecidableEq

/-- `ParseError` from parser.rs. -/
inductive PErr where
  | invalidTok (s : List Char)
  | unexpectedEnd
  | synErr (s : List Char)
deriving Repr, DecidableEq

instance {ε α : Type} [DecidableEq ε] [DecidableEq α] :
    DecidableEq (Except ε α)
  | .ok a, .ok b =>
    if h : a = b then .isTrue (by rw [h]) else .isFalse (by simp [h])
  | .error a, .error b =>
    if h : a = b then .isTrue (by rw [h]) else .isFalse (by simp [h])
  | .ok _, .error _ => .isFalse (by simp)
  | .error _, .ok _ => .isFalse (by simp)

/-- Character class of the number arm of `Prs::lex`. -/
def isNumChar (c : Char) : Bool := c.isDigit || c = '.'

/-- Character class opening the identifier arm of `Prs::lex`. -/
def isIdStart (c : Char) : Bool := c.isAlpha || c = '_'

/-- Character class continuing an identifier in `Prs::lex`. -/
def isIdChar (c : Char) : Bool := c.isAlphanum || c = '_'

/-- The five operator characters recognised by `Prs::lex`. -/
def isOpChar (c : Char) : Bool :=
  c = '+' || c = '-' || c = '*' || c = '/' || c = '^'

/-- `Prs::lex`, fuelled (every step consumes at least one character, so
`input.length + 1` fuel never runs out). -/
def lexF : Nat → Nat → List Char → List Tok
  | 0, _, _ => []
  | _ + 1, _, [] => []
  | fuel + 1, pos, c :: cs =>
    if c.isDigit then
      let num := (c :: cs).takeWhile isNumChar
      ⟨num, pos + num.length, TokType.tnum⟩ ::
        lexF fuel (pos + num.length) ((c :: cs).dropWhile isNumChar)
    else if isIdStart c then
      let idc := (c :: cs).takeWhile isIdChar
      ⟨idc, pos + idc.length, TokType.tid⟩ ::
        lexF fuel (pos + idc.length) ((c :: cs).dropWhile isIdChar)
    else if isOpChar c then
      ⟨[c], pos, TokType.top⟩ :: lexF fuel (pos + 1) cs
    else
      lexF fuel (pos + 1) cs

/-- `Prs::lex` at the top level. -/
def lex (input : List Char) : List Tok := lexF (input.length + 1) 0 input

/-- Digit string to a natural number, as `f64::parse` reads the integral and
fractional parts. -/
def digitsVal (ds : List Char) : Nat :=
  ds.foldl (fun a c => 10 * a + (c.toNat - 48)) 0

/-- `tok.val.parse::<f64>()` on the digit-and-dot strings the lexer can
produce: at most one dot, value is exact (integral part plus fractional
part scaled by a power of ten); anything else is a parse error. -/
def parseNum (s : List Char) : Option ℚ :=
  match s.splitOn '.' with
  | [ds] =>
    if ds ≠ [] ∧ ds.all Char.isDigit then some (digitsVal ds) else none
  | [ds, fs] =>
    if ds ≠ [] ∧ ds.all Char.isDigit ∧ fs.all Char.isDigit then
      some ((digitsVal ds : ℚ) + (digitsVal fs : ℚ) / (10 ^ fs.length : ℚ))
    else none
  | _ => none

/-- `Prs::factor`: take the next token; a number parses to its value, an
identifier is looked up in the symbol table (undefined → syntax error),
anything else is an invalid token. Returns the value and the new index. -/
def factor (syms : List (List Char × ℚ)) (toks : List Tok) (i : Nat) :
    Except PErr (ℚ × Nat) :=
  match toks.get? i with
  | none => .error .unexpectedEnd
  | some t =>
    match t.typ with
    | .tnum =>
      match parseNum t.val with
      | some q => .ok (q, i + 1)
      | none => .error (.invalidTok t.val)
    | .tid =>
      match syms.lookup t.val with
      | some q => .ok (q, i + 1)
      | none => .error (.synErr t.val)
    | _ => .error (.invalidTok t.val)

/-- The `while` loop of `Prs::term`: fold `*` and `/` factors onto `lhs`
(division by zero is a syntax error); any other token stops the loop. -/
def termLoop (syms : List (List Char × ℚ)) (toks : List Tok) :
    Nat → ℚ → Nat → Except PErr (ℚ × Nat)
  | 0, _, _ => .error .unexpectedEnd
  | fuel + 1, lhs, i =>
    match toks.get? i with
    | none => .ok (lhs, i)
    | some t =>
      if t.val = ['*'] then
        match factor syms toks (i + 1) with
        | .ok (rhs, j) => termLoop syms toks fuel (lhs * rhs) j
        | .error e => .error e
      else if t.val = ['/'] then
        match factor syms toks (i + 1) with
        | .ok (rhs, j) =>
          if rhs = 0 then .error (.synErr ("division by zero".toList))
          else termLoop syms toks fuel (lhs / rhs) j
        | .error e => .error e
      else .ok (lhs, i)

/-- `Prs::term`. -/
def term (syms : List (List Char × ℚ)) (toks : List Tok) (i : Nat) :
    Except PErr (ℚ × Nat) :=
  match factor syms toks i with
  | .ok (lhs, j) => termLoop syms toks (toks.length + 1) lhs j
  | .error e => .error e

/-- The `while` loop of `Prs::expr`: fold `+` and `-` terms onto `lhs`; any
other token — including the lexed `^` operator — stops the loop. -/
def exprLoop (syms : List (List Char × ℚ)) (toks : List Tok) :
    Nat → ℚ → Nat → Except PErr (ℚ × Nat)
  | 0, _, _ => .error .unexpectedEnd
  | fuel + 1, lhs, i =>
    match toks.get? i with
    | none => .ok (lhs, i)
    | some t =>
      if t.val = ['+'] then
        match term syms toks (i + 1) with
        | .ok (rhs, j) => exprLoop syms toks fuel (lhs + rhs) j
        | .error e => .error e
      else if t.val = ['-'] then
        match term syms toks (i + 1) with
        | .ok (rhs, j) => exprLoop syms toks fuel (lhs - rhs) j
        | .error e => .error e
      else .ok (lhs, i)

/-- `Prs::expr`. -/
def expr (syms : List (List Char × ℚ)) (toks : List Tok) (i : Nat) :
    Except PErr (ℚ × Nat) :=
  match term syms toks i with
  | .ok (lhs, j) => exprLoop syms toks (toks.length + 1) lhs j
  | .error e => .error e

/-- `Prs::new` followed by `Prs::parse` on an input string: lex, then parse
one expression with an empty symbol table, returning its value (leftover
tokens are not checked). -/
def evaluate (input : String) : Except PErr ℚ :=
  match expr [] (lex input.toList) 0 with
  | .ok (v, _) => .ok v
  | .error e => .error e

/-! ## Graph algorithms (`src/algorithms/graph.rs`)

`NodeIndex` is a position in `nds`, an edge index a position in `eds`.
`petgraph`'s `edges(u)` iterator yields the outgoing edges of `u` most
recently inserted first; loops carry explicit fuel, always enough for the
runs the claims are about. -/

/-- petgraph `edges(u)`: outgoing edges of `u`, most recently inserted
first, each paired with its arena index. -/
def Grf.outEdges (g : Grf) (u : Nat) : List (Nat × Nat × Nat × Ed) :=
  (g.eds.enum.filter (fun e => e.2.1 == u)).reverse

/-- petgraph `find_edge(u, v)`: the first edge to `v` on the outgoing list
of `u` (most recent first), as an arena index. -/
def Grf.find_edge (g : Grf) (u v : Nat) : Option Nat :=
  ((g.outEdges u).find? (fun e => e.2.2.1 == v)).map (fun e => e.1)

/-- Edge payload at arena index `i` (all indices used by the algorithms
come from `find_edge`/`outEdges` and are in range). -/
def Grf.edAt (g : Grf) (i : Nat) : Ed :=
  ((g.eds.get? i).map (fun e => e.2.2)).getD ⟨0, 0⟩

/-- Residual capacity `wt - flow` of the edge at arena index `i`. -/
def Grf.residAt (g : Grf) (i : Nat) : ℚ :=
  (g.edAt i).wt - (g.edAt i).flow

/-- `self.g[e].flow += d` at arena index `i`. -/
def Grf.addFlow (g : Grf) (i : Nat) (d : ℚ) : Grf :=
  match g.eds.get? i with
  | some (u, v, ed) => { g with eds := g.eds.set i (u, v, ⟨ed.wt, ed.flow + d⟩) }
  | none => g

/-- One node expansion of the BFS in `Grf::find_path` (lines 122–131):
scan the outgoing edges of `u`; every unseen target whose edge has
positive residual is marked seen, recorded in `prev`, and pushed. -/
def bfsScan (u : Nat) :
    List (Nat × Nat × Nat × Ed) → List Nat → List Nat → List (Nat × Nat) →
    List Nat × List Nat × List (Nat × Nat)
  | [], q, seen, prev => (q, seen, prev)
  | (_, _, v, ed) :: es, q, seen, prev =>
    if v ∉ seen ∧ ed.flow < ed.wt then
      bfsScan u es (q ++ [v]) (seen ++ [v]) ((v, u) :: prev)
    else
      bfsScan u es q seen prev

/-- The BFS loop of `Grf::find_path`, fuelled (`none` = fuel ran out; the
fuel passed by `find_path` suffices, see `bfsLoop_total`). Runs until the
queue is exhausted and returns the predecessor map and the seen set. -/
def bfsLoop (g : Grf) :
    Nat → List Nat → List Nat → List (Nat × Nat) →
    Option (List (Nat × Nat) × List Nat)
  | 0, q, seen, prev => if q = [] then some (prev, seen) else none
  | _ + 1, [], seen, prev => some (prev, seen)
  | fuel + 1, u :: qs, seen, prev =>
    let st := bfsScan u (g.outEdges u) qs seen prev
    bfsLoop g fuel st.1 st.2.1 st.2.2

/-- The reconstruction loop of `Grf::find_path` (lines 133–144): follow
`prev` from the sink; reaching `s` yields the path source-first, a missing
predecessor yields `[]`. Fuelled; a BFS `prev` never cycles, so the fuel
passed by `find_path` never runs out. -/
def buildPath (prev : List (Nat × Nat)) (s : Nat) :
    Nat → Nat → List Nat → List Nat
  | 0, _, _ => []
  | fuel + 1, curr, acc =>
    match prev.lookup curr with
    | none => []
    | some p =>
      if p = s then s :: curr :: acc
      else buildPath prev s fuel p (curr :: acc)

/-- `Grf::find_path`: BFS over positive-residual edges until the frontier
is exhausted, then reconstruct the path from the predecessor map. -/
def Grf.find_path (g : Grf) (s t : Nat) : List Nat :=
  match bfsLoop g (g.eds.length + 1) [s] [s] [] with
  | none => []
  | some (prev, _) => buildPath prev s (prev.length + 1) t []

/-- The set of nodes the BFS of `Grf::find_path` visits (its `seen` set
after the loop). -/
def Grf.bfsSeen (g : Grf) (s : Nat) : List Nat :=
  match bfsLoop g (g.eds.length + 1) [s] [s] [] with
  | none => [s]
  | some (_, seen) => seen


/-- The early-stopping BFS scan that the specification describes (this
definition follows the spec's words, for the C6 refinement comparison; the
code's scan is `bfsScan`): identical to `bfsScan` except that discovering
the sink `t` halts the whole search, signalled by the `Bool` component. -/
def bfsScanE (t u : Nat) :
    List (Nat × Nat × Nat × Ed) → List Nat → List Nat → List (Nat × Nat) →
    Bool × List Nat × List Nat × List (Nat × Nat)
  | [], q, seen, prev => (false, q, seen, prev)
  | (_, _, v, ed) :: es, q, seen, prev =>
    if v ∉ seen ∧ ed.flow < ed.wt then
      if v = t then (true, q ++ [v], seen ++ [v], (v, u) :: prev)
      else bfsScanE t u es (q ++ [v]) (seen ++ [v]) ((v, u) :: prev)
    else bfsScanE t u es q seen prev

/-- The early-stopping BFS loop the specification describes (spec-modelled,
for C6): stop as soon as the sink is reached, or when the frontier is
exhausted. -/
def bfsLoopE (g : Grf) (t : Nat) :
    Nat → List Nat → List Nat → List (Nat × Nat) →
    Option (List (Nat × Nat) × List Nat)
  | 0, q, seen, prev => if q = [] then some (prev, seen) else none
  | _ + 1, [], seen, prev => some (prev, seen)
  | fuel + 1, u :: qs, seen, prev =>
    let st := bfsScanE t u (g.outEdges u) qs seen prev
    if st.1 then some (st.2.2.2, st.2.2.1)
    else bfsLoopE g t fuel st.2.1 st.2.2.1 st.2.2.2

/-- The nodes the specification's early-stopping BFS visits (spec-modelled,
for C6; compare `Grf.bfsSeen`). -/
def bfsSeenEarly (g : Grf) (s t : Nat) : List Nat :=
  match bfsLoopE g t (g.eds.length + 1) [s] [s] [] with
  | none => [s]
  | some (_, seen) => seen

/-- The path the specification's early-stopping BFS yields (spec-modelled,
for C6; compare `Grf.find_path`). -/
def findPathEarly (g : Grf) (s t : Nat) : List Nat :=
  match bfsLoopE g t (g.eds.length + 1) [s] [s] [] with
  | none => []
  | some (prev, _) => buildPath prev s (prev.length + 1) t []

/-- The bottleneck computation of `Grf::max_flow` (lines 94–100): minimum
residual capacity over the `find_edge` edges of consecutive path pairs.
`none` models the `unwrap` panic of a missing edge (and is also returned
on paths without a pair, which `max_flow` never feeds in: the `f64`
infinity initializer is unobservable there). -/
def Grf.min_cap (g : Grf) : List Nat → Option ℚ
  | [u, v] => (g.find_edge u v).map g.residAt
  | u :: v :: rest =>
    match g.find_edge u v, g.min_cap (v :: rest) with
    | some i, some m => some (min (g.residAt i) m)
    | _, _ => none
  | _ => none

/-- The augmentation pass of `Grf::max_flow` (lines 102–107): add `d` to
the flow of the `find_edge` edge of every consecutive pair (`none` models
the `unwrap` panic). -/
def Grf.augment (g : Grf) (d : ℚ) : List Nat → Option Grf
  | u :: v :: rest =>
    match g.find_edge u v with
    | some i => (g.addFlow i d).augment d (v :: rest)
    | none => none
  | _ => some g

/-- The `loop` of `Grf::max_flow` (lines 88–110), fuelled: stop with the
accumulated total when `find_path` is empty, otherwise push the bottleneck
along the path and continue. `none` = fuel exhausted (or an unreachable
`unwrap` panic). -/
def maxFlowLoop (s t : Nat) : Nat → Grf → ℚ → Option (Grf × ℚ)
  | 0, _, _ => none
  | fuel + 1, g, fl =>
    let p := g.find_path s t
    if p = [] then some (g, fl)
    else
      match g.min_cap p with
      | none => none
      | some d =>
        match g.augment d p with
        | none => none
        | some g2 => maxFlowLoop s t fuel g2 (fl + d)

/-- `Grf::max_flow`, fuelled: resolve both external ids (the Rust code
indexes the `HashMap`, panicking when one is missing, modelled as `none`),
then run the augmentation loop from total `0`. -/
def Grf.max_flow (g : Grf) (s t : Nat) (fuel : Nat) : Option (Grf × ℚ) :=
  match g.idx_map.lookup s, g.idx_map.lookup t with
  | some si, some ti => maxFlowLoop si ti fuel g 0
  | _, _ => none

/-- The heap entry `Edge` from graph.rs (weight stored negated; the Rust
`BinaryHeap` is a max-heap on it). -/
structure HpEdge where
  u : Nat
  v : Nat
  wt : ℚ
deriving Repr, DecidableEq

/-- `BinaryHeap::pop` modelled on a list: remove and return an element of
maximal `wt` (the first such; `BinaryHeap` leaves the order of ties
unspecified and no claim depends on it). -/
def popMax : List HpEdge → Option (HpEdge × List HpEdge)
  | [] => none
  | e :: es =>
    match popMax es with
    | none => some (e, [])
    | some (m, rest) =>
      if e.wt < m.wt then some (m, e :: rest) else some (e, es)

/-- The heap entries `Edge::new(u, e.target(), -wt)` for the outgoing
edges of `u`, in iteration order. -/
def hpEntries (g : Grf) (u : Nat) : List HpEdge :=
  (g.outEdges u).map (fun e => ⟨u, e.2.2.1, -e.2.2.2.wt⟩)

/-- The loop of `Grf::mst` (lines 61–78), fuelled: pop the minimum-weight
frontier edge; a seen target is a stale entry and is skipped, otherwise
the target is marked seen, the edge is emitted with external ids and
un-negated weight, and the fresh node's outgoing edges to unseen targets
are pushed. `none` models fuel exhaustion or an out-of-range node index
(`self.g[u]` panic). -/
def mstLoop (g : Grf) :
    Nat → List HpEdge → List Nat → List (Nat × Nat × ℚ) →
    Option (List (Nat × Nat × ℚ))
  | 0, heap, _, res => if heap = [] then some res else none
  | fuel + 1, heap, seen, res =>
    match popMax heap with
    | none => some res
    | some (e, heap2) =>
      if e.v ∈ seen then mstLoop g fuel heap2 seen res
      else
        match g.nds.get? e.u, g.nds.get? e.v with
        | some nu, some nv =>
          mstLoop g fuel
            (heap2 ++ (hpEntries g e.v).filter
              (fun x => !((seen ++ [e.v]).contains x.v)))
            (seen ++ [e.v])
            (res ++ [(nu.id, nv.id, -e.wt)])
        | _, _ => none

/-- `Grf::mst`: an empty graph yields `[]`; otherwise seed the heap with
the outgoing edges of the first stored node (petgraph
`node_indices().next()` = index 0), mark it seen, and run the loop. -/
def Grf.mst (g : Grf) : Option (List (Nat × Nat × ℚ)) :=
  match g.nds with
  | [] => some []
  | _ :: _ => mstLoop g (g.eds.length + 1) (hpEntries g 0) [0] []

/-- A positive-residual edge from `u` to `v` (glossary: the edges an
augmenting path may use). -/
def ResStep (g : Grf) (u v : Nat) : Prop :=
  ∃ e ∈ g.eds, e.1 = u ∧ e.2.1 = v ∧ e.2.2.flow < e.2.2.wt

/-- A directed edge from `u` to `v` (the reachability the MST claims are
stated over). -/
def EdStep (g : Grf) (u v : Nat) : Prop :=
  ∃ e ∈ g.eds, e.1 = u ∧ e.2.1 = v

/-- One closure step of directed reachability: add every edge target whose
source is already in `S`. -/
def stepSet (g : Grf) (S : Finset Nat) : Finset Nat :=
  S ∪ ((g.eds.filter (fun e => decide (e.1 ∈ S))).map (fun e => e.2.1)).toFinset

/-- Iterated closure from node index 0. -/
def reachIter (g : Grf) : Nat → Finset Nat
  | 0 => {0}
  | n + 1 => stepSet g (reachIter g n)

/-- The set of node indices reachable from the start node (index 0) via
outgoing edges; `g.eds.length` closure steps always stabilize. -/
def reachSet (g : Grf) : Finset Nat := reachIter g g.eds.length

/-- The list of edge targets of `g`. -/
def targetsL (g : Grf) : List Nat := g.eds.map (fun e => e.2.1)

/-- The flow-independent part of an edge arena: source, target and
capacity of every edge, in order. -/
def stripE (l : List (Nat × Nat × Ed)) : List (Nat × Nat × ℚ) :=
  l.map (fun e => (e.1, e.2.1, e.2.2.wt))

/-- No parallel edges: the `(source, target)` pairs of the edge arena are
pairwise distinct. -/
def NoPar (g : Grf) : Prop := (g.eds.map (fun e => (e.1, e.2.1))).Nodup

/-- The consecutive pairs of a path. -/
def pairsOf (p : List Nat) : List (Nat × Nat) := p.zip p.tail

/-- Closure invariant of the BFS loop of `Grf::find_path`: seen nodes are
residually reachable from the source, and a seen node that already left
the queue has had all its positive-residual successors marked seen. -/
structure BfsClos (g : Grf) (s : Nat) (q seen : List Nat) : Prop where
  sSeen : s ∈ seen
  qSeen : ∀ v ∈ q, v ∈ seen
  seenReach : ∀ v ∈ seen, Relation.ReflTransGen (ResStep g) s v
  scanned : ∀ v ∈ seen, v ∉ q → ∀ w, ResStep g v w → w ∈ seen

/-- A two-edge chain 0 → 1 → 2 (ids 1, 2, 3): with source 0 and sink 1
the code's BFS still explores node 2 after the sink was reached. -/
def chainG : Grf :=
  ⟨[⟨1, 0, 0, 0⟩, ⟨2, 0, 0, 0⟩, ⟨3, 0, 0, 0⟩],
   [(0, 1, ⟨1, 0⟩), (1, 2, ⟨1, 0⟩)],
   [(3, 2), (2, 1), (1, 0)]⟩

/-- Invariant of the BFS loop state in `Grf::find_path`: `seen` records
discovery order without duplicates, queued nodes are seen, and every
predecessor entry `(v, u)` was written when the positive-residual edge
`u → v` first discovered `v`, with `u` discovered strictly earlier. -/
structure BfsInv (g : Grf) (s : Nat) (q seen : List Nat)
    (prev : List (Nat × Nat)) : Prop where
  seenNodup : seen.Nodup
  sSeen : s ∈ seen
  qSeen : ∀ v ∈ q, v ∈ seen
  keysSeen : ∀ p ∈ prev, p.1 ∈ seen
  keysNotS : ∀ p ∈ prev, p.1 ≠ s
  edge : ∀ p ∈ prev, ResStep g p.2 p.1
  ordLt : ∀ p ∈ prev, p.2 ∈ seen ∧ seen.indexOf p.2 < seen.indexOf p.1
  lenEq : prev.length + 1 = seen.length
  seenValid : ∀ v ∈ seen, v = s ∨ v ∈ targetsL g

/-- Sum of the flows of the edges into node index `v`. -/
def inflow (g : Grf) (v : Nat) : ℚ :=
  ((g.eds.filter (fun e => e.2.1 == v)).map (fun e => e.2.2.flow)).sum

/-- Sum of the flows of the edges out of node index `v`. -/
def outflow (g : Grf) (v : Nat) : ℚ :=
  ((g.eds.filter (fun e => e.1 == v)).map (fun e => e.2.2.flow)).sum

/-- Sum of the capacities of the edges out of node index `v` ("total
capacity leaving the source" in the termination claim). -/
def capOut (g : Grf) (v : Nat) : ℚ :=
  ((g.eds.filter (fun e => e.1 == v)).map (fun e => e.2.2.wt)).sum

/-- Invariant of the `Grf::mst` loop: `seen` is duplicate-free, contains
the start node, holds only valid and reachable node indices; heap entries
start in `seen` and correspond to real edges; every edge out of `seen` is
accounted for (target seen or a matching heap entry); and one result row
was emitted per seen node except the start. -/
structure MstInv (g : Grf) (heap : List HpEdge) (seen : List Nat)
    (res : List (Nat × Nat × ℚ)) : Prop where
  seenNodup : seen.Nodup
  zeroSeen : 0 ∈ seen
  seenValid : ∀ v ∈ seen, v < g.nds.length
  seenReach : ∀ v ∈ seen, v ∈ reachSet g
  heapSrc : ∀ e ∈ heap, e.u ∈ seen
  heapEdge : ∀ e ∈ heap, ∃ x ∈ g.eds, x.1 = e.u ∧ x.2.1 = e.v
  closure : ∀ x ∈ g.eds, x.1 ∈ seen →
    x.2.1 ∈ seen ∨ ∃ e ∈ heap, e.u = x.1 ∧ e.v = x.2.1
  resLen : res.length + 1 = seen.length

/-- Potential of an `mst` loop state: every iteration strictly decreases
it, bounding the number of iterations by `g.eds.length`. -/
def mstPot (g : Grf) (heap : List HpEdge) (seen : List Nat) : Nat :=
  heap.length + (g.eds.filter (fun x => !(List.contains seen x.1))).length

/-- The identifier index produced by inserting nodes 1, 2, 3, 4 in order
(specification scenario). -/
def scnIdx : List (Nat × Nat) := [(4, 3), (3, 2), (2, 1), (1, 0)]

/-- The edge arena of the specification scenario — capacities
`1→2 : 3`, `1→3 : 2`, `2→4 : 2`, `3→4 : 3` — with the four flow values as
parameters. -/
def scnEds (f01 f02 f13 f23 : ℚ) : List (Nat × Nat × Ed) :=
  [(0, 1, ⟨3, f01⟩), (0, 2, ⟨2, f02⟩), (1, 3, ⟨2, f13⟩), (2, 3, ⟨3, f23⟩)]

/-- The specification-scenario graph with arbitrary node payloads and the
given flow state. -/
def scnGrf (nds : List Nd) (f01 f02 f13 f23 : ℚ) : Grf :=
  ⟨nds, scnEds f01 f02 f13 f23, scnIdx⟩

/-- The `max_flow` loop with the path search abstracted: `pf` stands for
a search that may discover augmenting paths in any order. Used to state
that the concrete scenario's answer does not depend on the order in
which the BFS discovers augmenting paths. -/
def maxFlowWith (pf : Grf → List Nat) : Nat → Grf → ℚ → Option (Grf × ℚ)
  | 0, _, _ => none
  | fuel + 1, g, fl =>
    let p := pf g
    if p = [] then some (g, fl)
    else
      match g.min_cap p with
      | none => none
      | some d =>
        match g.augment d p with
        | none => none
        | some g2 => maxFlowWith pf fuel g2 (fl + d)

/-- An augmenting path from node index `s` to node index `t` (glossary):
it starts at `s`, ends at `t`, has at least one edge, and consecutive
nodes are joined by positive-residual edges. -/
def IsAugPath (g : Grf) (s t : Nat) (p : List Nat) : Prop :=
  ∃ mid, p = s :: mid ++ [t] ∧ List.Chain' (ResStep g) p

/-- A conforming path search at state `g`: it returns an augmenting path
from `s` to `t` whenever it returns anything, and returns `[]` only when
no augmenting path exists (exactly the guarantee the BFS gives,
whatever its discovery order). -/
def AugChoice (s t : Nat) (pf : Grf → List Nat) (g : Grf) : Prop :=
  (pf g = [] → ∀ p, ¬ IsAugPath g s t p) ∧
  (pf g ≠ [] → IsAugPath g s t (pf g))

/-- Number of unsaturated edges (strictly positive residual capacity);
the termination measure of the `max_flow` loop on graphs without parallel
edges. -/
def unsatC (g : Grf) : Nat :=
  ((Finset.range g.eds.length).filter (fun i => 0 < g.residAt i)).card

/-- Invariant of the augmentation loop of `Grf::max_flow` relative to the
starting graph `g0`: the structure (nodes, id index, edge
sources/targets/capacities) never changes, every flow stays within
`[0, capacity]`, flow is conserved away from source and sink, the running
total equals the flow out of the source, and no flow enters the source. -/
structure FlowInv (si ti : Nat) (g0 g : Grf) (fl : ℚ) : Prop where
  nds_eq : g.nds = g0.nds
  idx_eq : g.idx_map = g0.idx_map
  strip_eq : stripE g.eds = stripE g0.eds
  bounds : ∀ e ∈ g.eds, 0 ≤ e.2.2.flow ∧ e.2.2.flow ≤ e.2.2.wt
  conserve : ∀ v, v ≠ si → v ≠ ti → inflow g v = outflow g v
  value : fl = outflow g si
  srcIn : inflow g si = 0


/-! ## Claims about insertion and the lifecycle core -/

/-- C7: edge insertion with an unregistered endpoint fails fast (the lookup
fails; no edge is added, no phantom node is created), and with both
endpoints registered the lookups succeed and a directed edge with
`flow = 0` is appended. -/
theorem add_ed_contract (g : Grf) (a b : Nat) (w : ℚ) :
    ((g.idx_map.lookup a = none ∨ g.idx_map.lookup b = none) →
      g.add_ed a b w = none) ∧
    (∀ u v, g.idx_map.lookup a = some u → g.idx_map.lookup b = some v →
      g.add_ed a b w =
        some { g with eds := g.eds ++ [(u, v, ⟨w, 0⟩)] }) := by
  constructor
  · intro h
    unfold Grf.add_ed
    rcases h with h | h
    · rw [h]
    · rw [h]; cases g.idx_map.lookup a <;> rfl
  · intro u v hu hv
    unfold Grf.add_ed
    rw [hu, hv]

/-- C7 witness: in the empty graph inserting an edge between unregistered
ids 1 and 2 fails; after registering both, insertion appends the edge. -/
theorem add_ed_contract_witness :
    Grf.new.add_ed 1 2 (3 : ℚ) = none ∧
    (((Grf.new.add_nd 1 0 0 0).1.add_nd 2 0 0 0).1.add_ed 1 2 (3 : ℚ) =
      some { ((Grf.new.add_nd 1 0 0 0).1.add_nd 2 0 0 0).1 with
               eds := [(0, 1, ⟨3, 0⟩)] }) := by
  constructor
  · exact (add_ed_contract Grf.new 1 2 3).1 (Or.inl rfl)
  · exact (add_ed_contract _ 1 2 3).2 0 1 rfl rfl

/-- C8: node insertion always succeeds, returns the freshly allocated
handle, and afterwards the identifier index maps the id to that handle
even if the id was already registered (silent overwrite). -/
theorem add_nd_overwrites (g : Grf) (id : Nat) (v x y : ℚ) :
    (g.add_nd id v x y).2 = g.nds.length ∧
    (g.add_nd id v x y).1.idx_map.lookup id = some g.nds.length := by
  refine ⟨rfl, ?_⟩
  unfold Grf.add_nd
  simp [List.lookup]

/-- C9: `start` and `stop` are idempotent: `start` on a running core is a
no-op (flag stays, no event is sent), `stop` on a stopped core likewise,
and `start` after `start` (resp. `stop` after `stop`) leaves the same
observable state as a single call. -/
theorem start_stop_idempotent (c : Core) :
    (c.running = true → c.start = c) ∧
    (c.running = false → c.stop = c) ∧
    c.start.start = c.start ∧
    c.stop.stop = c.stop := by
  unfold Core.start Core.stop
  by_cases h : c.running <;> simp [h]

/-- C9 witness: on a freshly created core, a second `start` after a first is
a no-op, and `stop` on the initial (stopped) core is a no-op. -/
theorem start_stop_idempotent_witness :
    (Core.new 4).start.start = (Core.new 4).start ∧
    (Core.new 4).stop = Core.new 4 := by
  exact ⟨(start_stop_idempotent (Core.new 4)).2.2.1,
         (start_stop_idempotent (Core.new 4)).2.1 rfl⟩

/-- C10: the evaluator does NOT implement exponentiation: `"2^3"` lexes to
`[2, ^, 3]`, but `expr`/`term` stop at the unhandled `^` operator, so the
evaluator returns `2` — not the claimed power `8` — silently ignoring the
`^` and everything after it. -/
theorem evaluate_ignores_caret :
    evaluate "2^3" = .ok 2 ∧ evaluate "2^3" ≠ .ok 8 ∧
    evaluate "2*3" = .ok 6 := by
  refine ⟨by decide, by decide, by decide⟩

/-! ## Basic lemmas about the graph primitives -/

theorem mem_of_lookup {l : List (Nat × Nat)} {k v : Nat}
    (h : l.lookup k = some v) : (k, v) ∈ l := by
  rcases List.lookup_eq_some_iff.1 h with ⟨l1, l2, rfl, _⟩
  simp

theorem enumFrom_map {α β : Type} (f : α → β) :
    ∀ (l : List α) (n : Nat),
      (l.map f).enumFrom n = (l.enumFrom n).map (Prod.map id f) := by
  intro l
  induction l with
  | nil => intro n; rfl
  | cons a l ih =>
    intro n; simp only [List.map, List.enumFrom, ih, Prod.map, id]

theorem enum_map {α β : Type} (f : α → β) (l : List α) :
    (l.map f).enum = l.enum.map (Prod.map id f) := enumFrom_map f l 0

theorem mem_outEdges {g : Grf} {u : Nat} {x : Nat × Nat × Nat × Ed}
    (hx : x ∈ g.outEdges u) : g.eds.get? x.1 = some x.2 ∧ x.2.1 = u := by
  unfold Grf.outEdges at hx
  rw [List.mem_reverse, List.mem_filter] at hx
  obtain ⟨hmem, hpred⟩ := hx
  exact ⟨List.mem_enum_iff_get?.1 hmem, by simpa using hpred⟩

theorem outEdges_mem {g : Grf} {u i : Nat} {e : Nat × Nat × Ed}
    (hi : g.eds.get? i = some e) (hsrc : e.1 = u) : (i, e) ∈ g.outEdges u := by
  unfold Grf.outEdges
  rw [List.mem_reverse, List.mem_filter]
  exact ⟨List.mk_mem_enum_iff_get?.2 hi, by simpa using hsrc⟩

theorem find_edge_spec {g : Grf} {u v i : Nat} (h : g.find_edge u v = some i) :
    ∃ ed : Ed, g.eds.get? i = some (u, v, ed) := by
  unfold Grf.find_edge at h
  cases hf : (g.outEdges u).find? (fun e => e.2.2.1 == v) with
  | none => rw [hf] at h; simp at h
  | some x =>
    rw [hf] at h
    simp only [Option.map_some', Option.some.injEq] at h
    have hp : x.2.2.1 = v := by simpa using List.find?_some hf
    obtain ⟨hget, hsrc⟩ := mem_outEdges (List.mem_of_find?_eq_some hf)
    refine ⟨x.2.2.2, ?_⟩
    rw [← h]
    have : x.2 = (u, v, x.2.2.2) := by
      ext <;> simp [hsrc, hp]
    rw [← this]
    exact hget

theorem find_edge_isSome {g : Grf} {u v : Nat} {e : Nat × Nat × Ed}
    (he : e ∈ g.eds) (hsrc : e.1 = u) (htgt : e.2.1 = v) :
    (g.find_edge u v).isSome := by
  unfold Grf.find_edge
  rw [Option.isSome_map']
  rw [List.find?_isSome]
  obtain ⟨i, hi⟩ := List.mem_iff_get?.1 he
  exact ⟨(i, e), outEdges_mem hi hsrc, by simpa using htgt⟩

theorem find_edge_nopar {g : Grf} (hnp : NoPar g) {u v j : Nat}
    {e : Nat × Nat × Ed} (hj : g.eds.get? j = some e) (hsrc : e.1 = u)
    (htgt : e.2.1 = v) : g.find_edge u v = some j := by
  have hmem : e ∈ g.eds := by
    rw [List.mem_iff_get?]; exact ⟨j, hj⟩
  have hs := find_edge_isSome hmem hsrc htgt
  obtain ⟨i, hi⟩ := Option.isSome_iff_exists.1 hs
  obtain ⟨ed, hied⟩ := find_edge_spec hi
  have hjlt : j < g.eds.length := (List.get?_eq_some.1 hj).1
  have hilt : i < g.eds.length := (List.get?_eq_some.1 hied).1
  have hij : i = j := by
    have h1 : (g.eds.map (fun e => (e.1, e.2.1)))[i]? = some (u, v) := by
      rw [← List.get?_eq_getElem?, List.get?_map, hied]; rfl
    have h2 : (g.eds.map (fun e => (e.1, e.2.1)))[j]? = some (u, v) := by
      rw [← List.get?_eq_getElem?, List.get?_map, hj]
      simp [hsrc, htgt]
    exact List.getElem?_inj (by simpa using hilt) hnp (h1.trans h2.symm)
  rw [hij] at hi
  exact hi

theorem addFlow_eds {g : Grf} {i : Nat} {e : Nat × Nat × Ed}
    (h : g.eds.get? i = some e) (d : ℚ) :
    (g.addFlow i d).eds =
      g.eds.set i (e.1, e.2.1, ⟨e.2.2.wt, e.2.2.flow + d⟩) := by
  unfold Grf.addFlow
  rw [h]

theorem addFlow_nds (g : Grf) (i : Nat) (d : ℚ) :
    (g.addFlow i d).nds = g.nds := by
  unfold Grf.addFlow
  cases g.eds.get? i with
  | none => rfl
  | some e => rfl

theorem addFlow_idx (g : Grf) (i : Nat) (d : ℚ) :
    (g.addFlow i d).idx_map = g.idx_map := by
  unfold Grf.addFlow
  cases g.eds.get? i with
  | none => rfl
  | some e => rfl

theorem addFlow_strip (g : Grf) (i : Nat) (d : ℚ) :
    stripE (g.addFlow i d).eds = stripE g.eds := by
  unfold Grf.addFlow
  cases h : g.eds.get? i with
  | none => rfl
  | some e =>
    obtain ⟨u, v, ed⟩ := e
    show stripE (g.eds.set i (u, v, ⟨ed.wt, ed.flow + d⟩)) = stripE g.eds
    unfold stripE
    rw [List.map_set]
    have hmi : (g.eds.map (fun e => (e.1, e.2.1, e.2.2.wt)))[i]? = some (u, v, ed.wt) := by
      rw [← List.get?_eq_getElem?, List.get?_map, h]; rfl
    apply List.ext_getElem?
    intro j
    rw [List.getElem?_set]
    split
    · next hj =>
      subst hj
      have hlt : i < (g.eds.map fun e => (e.1, e.2.1, e.2.2.wt)).length := by
        rw [List.length_map]
        exact (List.get?_eq_some.1 h).1
      rw [if_pos hlt, hmi]
    · rfl

theorem addFlow_get? {g : Grf} {i : Nat} {e : Nat × Nat × Ed}
    (h : g.eds.get? i = some e) (d : ℚ) (j : Nat) :
    (g.addFlow i d).eds.get? j =
      if j = i then some (e.1, e.2.1, ⟨e.2.2.wt, e.2.2.flow + d⟩)
      else g.eds.get? j := by
  have hlt : i < g.eds.length := (List.get?_eq_some.1 h).1
  rw [addFlow_eds h d, List.get?_eq_getElem?, List.getElem?_set]
  by_cases hj : j = i
  · subst hj
    simp [hlt]
  · rw [if_neg (fun hh => hj hh.symm), if_neg hj, List.get?_eq_getElem?]

theorem find_edge_eq_strip (g : Grf) (u v : Nat) :
    g.find_edge u v =
      ((((stripE g.eds).enum.filter (fun e => e.2.1 == u)).reverse.find?
        (fun e => e.2.2.1 == v)).map (fun e => e.1)) := by
  unfold Grf.find_edge Grf.outEdges stripE
  rw [enum_map, List.filter_map, List.reverse_map, List.find?_map,
    Option.map_map]
  rfl

theorem find_edge_congr {g1 g2 : Grf} (h : stripE g1.eds = stripE g2.eds)
    (u v : Nat) : g1.find_edge u v = g2.find_edge u v := by
  rw [find_edge_eq_strip, find_edge_eq_strip, h]

theorem sum_flow_set (sel : Nat × Nat × Ed → Nat) :
    ∀ (l : List (Nat × Nat × Ed)) (i : Nat) (e en : Nat × Nat × Ed) (d : ℚ)
      (w : Nat), l.get? i = some e → en.2.2.flow = e.2.2.flow + d →
      sel en = sel e →
      (((l.set i en).filter (fun x => sel x == w)).map
          (fun x => x.2.2.flow)).sum =
        ((l.filter (fun x => sel x == w)).map (fun x => x.2.2.flow)).sum +
          (if sel e = w then d else 0) := by
  intro l
  induction l with
  | nil => intro i e en d w h _ _; simp at h
  | cons a l ih =>
    intro i e en d w h hflow hsel
    cases i with
    | zero =>
      have hae : a = e := Option.some.inj h
      subst hae
      rw [List.set]
      by_cases hw : sel a = w
      · rw [List.filter_cons_of_pos (by simp [hsel, hw]),
          List.filter_cons_of_pos (by simp [hw])]
        simp only [List.map, List.sum_cons, hflow, if_pos hw]
        ring
      · rw [List.filter_cons_of_neg (by simp [hsel, hw]),
          List.filter_cons_of_neg (by simp [hw])]
        simp [hw]
    | succ i =>
      have h2 : l.get? i = some e := h
      rw [List.set]
      by_cases hw : sel a = w
      · rw [List.filter_cons_of_pos (by simp [hw]),
          List.filter_cons_of_pos (by simp [hw])]
        simp only [List.map, List.sum_cons]
        rw [ih i e en d w h2 hflow hsel]
        ring
      · rw [List.filter_cons_of_neg (by simp [hw]),
          List.filter_cons_of_neg (by simp [hw])]
        exact ih i e en d w h2 hflow hsel

theorem inflow_addFlow {g : Grf} {i : Nat} {e : Nat × Nat × Ed}
    (h : g.eds.get? i = some e) (d : ℚ) (w : Nat) :
    inflow (g.addFlow i d) w = inflow g w + (if e.2.1 = w then d else 0) := by
  unfold inflow
  rw [addFlow_eds h d]
  exact sum_flow_set (fun x => x.2.1) g.eds i e _ d w h rfl rfl

theorem outflow_addFlow {g : Grf} {i : Nat} {e : Nat × Nat × Ed}
    (h : g.eds.get? i = some e) (d : ℚ) (w : Nat) :
    outflow (g.addFlow i d) w = outflow g w + (if e.1 = w then d else 0) := by
  unfold outflow
  rw [addFlow_eds h d]
  exact sum_flow_set (fun x => x.1) g.eds i e _ d w h rfl rfl

/-! ## BFS invariants for `Grf::find_path` -/

theorem bfsScan_shape (u : Nat) :
    ∀ (es : List (Nat × Nat × Nat × Ed)) (q seen : List Nat)
      (prev : List (Nat × Nat)),
      ∃ fresh : List Nat,
        (bfsScan u es q seen prev).1 = q ++ fresh ∧
        (bfsScan u es q seen prev).2.1 = seen ++ fresh ∧
        fresh.Nodup ∧
        (∀ v ∈ fresh, v ∉ seen) ∧
        (∀ v ∈ fresh, ∃ x ∈ es, x.2.2.1 = v ∧ x.2.2.2.flow < x.2.2.2.wt) ∧
        (∀ p ∈ (bfsScan u es q seen prev).2.2,
          p ∈ prev ∨ (p.1 ∈ fresh ∧ p.2 = u)) ∧
        (∀ p ∈ prev, p ∈ (bfsScan u es q seen prev).2.2) ∧
        (bfsScan u es q seen prev).2.2.length = prev.length + fresh.length := by
  intro es
  induction es with
  | nil =>
    intro q seen prev
    exact ⟨[], by simp [bfsScan], by simp [bfsScan], List.nodup_nil,
      by simp, by simp, by simp [bfsScan], by simp [bfsScan],
      by simp [bfsScan]⟩
  | cons x es ih =>
    intro q seen prev
    obtain ⟨i, src, v, ed⟩ := x
    by_cases hc : v ∉ seen ∧ ed.flow < ed.wt
    · obtain ⟨fresh, hq, hs, hnd, hns, hw, hpn, hpo, hpl⟩ :=
        ih (q ++ [v]) (seen ++ [v]) ((v, u) :: prev)
      have heq : bfsScan u ((i, src, v, ed) :: es) q seen prev =
          bfsScan u es (q ++ [v]) (seen ++ [v]) ((v, u) :: prev) := by
        rw [bfsScan, if_pos hc]
      refine ⟨v :: fresh, ?_, ?_, ?_, ?_, ?_, ?_, ?_, ?_⟩
      · rw [heq, hq, List.append_assoc]; rfl
      · rw [heq, hs, List.append_assoc]; rfl
      · refine List.nodup_cons.2 ⟨fun hv => ?_, hnd⟩
        exact hns v hv (by simp)
      · intro w hw2
        rcases List.mem_cons.1 hw2 with rfl | hw2
        · exact hc.1
        · intro hws
          exact hns w hw2 (List.mem_append_left _ hws)
      · intro w hw2
        rcases List.mem_cons.1 hw2 with hwv | hw2
        · subst hwv
          exact ⟨(i, src, w, ed), by simp, rfl, hc.2⟩
        · obtain ⟨x, hx, hxt, hxr⟩ := hw w hw2
          exact ⟨x, List.mem_cons_of_mem _ hx, hxt, hxr⟩
      · intro p hp
        rw [heq] at hp
        rcases hpn p hp with hp2 | hp2
        · rcases List.mem_cons.1 hp2 with rfl | hp2
          · exact Or.inr ⟨by simp, rfl⟩
          · exact Or.inl hp2
        · exact Or.inr ⟨List.mem_cons_of_mem _ hp2.1, hp2.2⟩
      · intro p hp
        rw [heq]
        exact hpo p (List.mem_cons_of_mem _ hp)
      · rw [heq, hpl]
        simp only [List.length_cons]
        omega
    · obtain ⟨fresh, hq, hs, hnd, hns, hw, hpn, hpo, hpl⟩ := ih q seen prev
      have heq : bfsScan u ((i, src, v, ed) :: es) q seen prev =
          bfsScan u es q seen prev := by
        rw [bfsScan, if_neg hc]
      refine ⟨fresh, by rw [heq, hq], by rw [heq, hs], hnd, hns, ?_,
        by rw [heq]; exact hpn, by rw [heq]; exact hpo, by rw [heq]; exact hpl⟩
      intro w hw2
      obtain ⟨x, hx, hxt, hxr⟩ := hw w hw2
      exact ⟨x, List.mem_cons_of_mem _ hx, hxt, hxr⟩

theorem bfsInv_scan {g : Grf} {s u : Nat} {qs seen : List Nat}
    {prev : List (Nat × Nat)} (hinv : BfsInv g s (u :: qs) seen prev) :
    BfsInv g s (bfsScan u (g.outEdges u) qs seen prev).1
      (bfsScan u (g.outEdges u) qs seen prev).2.1
      (bfsScan u (g.outEdges u) qs seen prev).2.2 := by
  have hu : u ∈ seen := hinv.qSeen u (by simp)
  obtain ⟨fresh, hq, hs, hnd, hns, hw, hpn, hpo, hpl⟩ :=
    bfsScan_shape u (g.outEdges u) qs seen prev
  have hfreshT : ∀ v ∈ fresh, v ∈ targetsL g := by
    intro v hv
    obtain ⟨x, hx, hxt, _⟩ := hw v hv
    obtain ⟨hget, _⟩ := mem_outEdges hx
    have : x.2 ∈ g.eds := List.get?_mem hget
    exact hxt ▸ List.mem_map_of_mem (fun e => e.2.1) this
  have hfreshE : ∀ v ∈ fresh, ResStep g u v := by
    intro v hv
    obtain ⟨x, hx, hxt, hxr⟩ := hw v hv
    obtain ⟨hget, hsrc⟩ := mem_outEdges hx
    exact ⟨x.2, List.get?_mem hget, hsrc, hxt, hxr⟩
  rw [hq, hs]
  constructor
  · rw [List.nodup_append]
    exact ⟨hinv.seenNodup, hnd, fun a ha hf => hns a hf ha⟩
  · exact List.mem_append_left _ hinv.sSeen
  · intro v hv
    rcases List.mem_append.1 hv with hv | hv
    · exact List.mem_append_left _ (hinv.qSeen v (List.mem_cons_of_mem _ hv))
    · exact List.mem_append_right _ hv
  · intro p hp
    rcases hpn p hp with hp2 | hp2
    · exact List.mem_append_left _ (hinv.keysSeen p hp2)
    · exact List.mem_append_right _ hp2.1
  · intro p hp
    rcases hpn p hp with hp2 | hp2
    · exact hinv.keysNotS p hp2
    · intro hps
      exact hns p.1 hp2.1 (hps ▸ hinv.sSeen)
  · intro p hp
    rcases hpn p hp with hp2 | hp2
    · exact hinv.edge p hp2
    · exact hp2.2 ▸ hfreshE p.1 hp2.1
  · intro p hp
    rcases hpn p hp with hp2 | hp2
    · obtain ⟨h2s, h2lt⟩ := hinv.ordLt p hp2
      have h1s := hinv.keysSeen p hp2
      refine ⟨List.mem_append_left _ h2s, ?_⟩
      rw [List.indexOf_append_of_mem h2s, List.indexOf_append_of_mem h1s]
      exact h2lt
    · obtain ⟨hkf, hpu⟩ := hp2
      have hkns : p.1 ∉ seen := hns p.1 hkf
      refine ⟨List.mem_append_left _ (hpu ▸ hu), ?_⟩
      rw [hpu, List.indexOf_append_of_mem hu,
        List.indexOf_append_of_not_mem hkns]
      calc List.indexOf u seen < seen.length := List.indexOf_lt_length.2 hu
        _ ≤ seen.length + List.indexOf p.1 fresh := Nat.le_add_right _ _
  · rw [hpl, List.length_append]
    have := hinv.lenEq
    omega
  · intro v hv
    rcases List.mem_append.1 hv with hv | hv
    · exact hinv.seenValid v hv
    · exact Or.inr (hfreshT v hv)

theorem bfsLoop_inv {g : Grf} {s : Nat} :
    ∀ (fuel : Nat) (q seen : List Nat) (prev : List (Nat × Nat)),
      BfsInv g s q seen prev →
      ∀ {prevF seenF : _}, bfsLoop g fuel q seen prev = some (prevF, seenF) →
      BfsInv g s [] seenF prevF := by
  intro fuel
  induction fuel with
  | zero =>
    intro q seen prev hinv prevF seenF h
    rw [bfsLoop] at h
    split at h
    · next hq =>
      subst hq
      obtain ⟨h1, h2⟩ := Prod.mk.injEq .. ▸ Option.some.inj h
      subst h1; subst h2
      exact ⟨hinv.seenNodup, hinv.sSeen, by simp, hinv.keysSeen,
        hinv.keysNotS, hinv.edge, hinv.ordLt, hinv.lenEq, hinv.seenValid⟩
    · exact absurd h (by simp)
  | succ fuel ih =>
    intro q seen prev hinv prevF seenF h
    match q, hinv with
    | [], hinv =>
      rw [bfsLoop] at h
      obtain ⟨h1, h2⟩ := Prod.mk.injEq .. ▸ Option.some.inj h
      subst h1; subst h2
      exact hinv
    | u :: qs, hinv =>
      rw [bfsLoop] at h
      exact ih _ _ _ (bfsInv_scan hinv) h

theorem bfsInv_init (g : Grf) (s : Nat) : BfsInv g s [s] [s] [] := by
  refine ⟨by simp, by simp, by simp, by simp, by simp, by simp, by simp,
    by simp, ?_⟩
  intro v hv
  simp at hv
  exact Or.inl hv

theorem buildPath_shape (prev : List (Nat × Nat)) (s : Nat) :
    ∀ (fuel curr : Nat) (acc : List Nat),
      buildPath prev s fuel curr acc = [] ∨
        ∃ mid, buildPath prev s fuel curr acc = s :: mid ++ curr :: acc := by
  intro fuel
  induction fuel with
  | zero => intro curr acc; exact Or.inl rfl
  | succ fuel ih =>
    intro curr acc
    cases hl : prev.lookup curr with
    | none => simp [buildPath, hl]
    | some p =>
      by_cases hp : p = s
      · simp only [buildPath, hl, if_pos hp]
        exact Or.inr ⟨[], rfl⟩
      · simp only [buildPath, hl, if_neg hp]
        rcases ih p (curr :: acc) with h | ⟨mid, hmid⟩
        · exact Or.inl h
        · refine Or.inr ⟨mid ++ [p], ?_⟩
          rw [hmid]
          simp

theorem buildPath_chain (R : Nat → Nat → Prop) (prev : List (Nat × Nat))
    (s : Nat) (hprev : ∀ p ∈ prev, R p.2 p.1) :
    ∀ (fuel curr : Nat) (acc : List Nat),
      List.Chain' R (curr :: acc) →
      buildPath prev s fuel curr acc = [] ∨
        List.Chain' R (buildPath prev s fuel curr acc) := by
  intro fuel
  induction fuel with
  | zero => intro curr acc _; exact Or.inl rfl
  | succ fuel ih =>
    intro curr acc hacc
    cases hl : prev.lookup curr with
    | none => simp [buildPath, hl]
    | some p =>
      have hR : R p curr := hprev (curr, p) (mem_of_lookup hl)
      by_cases hp : p = s
      · simp only [buildPath, hl, if_pos hp]
        exact Or.inr (List.chain'_cons.2 ⟨hp ▸ hR, hacc⟩)
      · simp only [buildPath, hl, if_neg hp]
        exact ih p (curr :: acc) (List.chain'_cons.2 ⟨hR, hacc⟩)

theorem chain'_reach {R : Nat → Nat → Prop} :
    ∀ (l : List Nat) (a b : Nat), List.Chain' R (a :: l ++ [b]) →
      Relation.ReflTransGen R a b := by
  intro l
  induction l with
  | nil =>
    intro a b h
    exact Relation.ReflTransGen.single (List.chain'_cons.1 h).1
  | cons c l ih =>
    intro a b h
    exact Relation.ReflTransGen.head (List.chain'_cons.1 h).1
      (ih c b (List.chain'_cons.1 h).2)

theorem find_path_spec (g : Grf) (s t : Nat) :
    g.find_path s t = [] ∨
      ∃ mid, g.find_path s t = s :: mid ++ [t] ∧
        List.Chain' (ResStep g) (g.find_path s t) ∧
        (g.find_path s t).Nodup := by
  unfold Grf.find_path
  cases hb : bfsLoop g (g.eds.length + 1) [s] [s] [] with
  | none => exact Or.inl rfl
  | some r =>
    obtain ⟨prevF, seenF⟩ := r
    have hI : BfsInv g s [] seenF prevF :=
      bfsLoop_inv _ _ _ _ (bfsInv_init g s) hb
    rcases buildPath_shape prevF s (prevF.length + 1) t [] with h0 | ⟨mid, hmid⟩
    · exact Or.inl h0
    · refine Or.inr ⟨mid, hmid, ?_, ?_⟩
      · rcases buildPath_chain (ResStep g) prevF s hI.edge (prevF.length + 1)
          t [] (by simp) with h0 | hc
        · rw [h0] at hmid; simp at hmid
        · exact hc
      · rcases buildPath_chain
          (fun a b => seenF.indexOf a < seenF.indexOf b) prevF s
          (fun p hp => (hI.ordLt p hp).2) (prevF.length + 1) t []
          (by simp) with h0 | hc
        · rw [h0] at hmid; simp at hmid
        · haveI : IsTrans Nat (fun a b => seenF.indexOf a < seenF.indexOf b) :=
            ⟨fun a b c hab hbc => lt_trans hab hbc⟩
          have hpair := List.chain'_iff_pairwise.1 hc
          exact hpair.imp (fun hab heq => absurd (heq ▸ hab) (lt_irrefl _))

theorem find_path_reach (g : Grf) {s t : Nat} (h : g.find_path s t ≠ []) :
    Relation.ReflTransGen (ResStep g) s t := by
  rcases find_path_spec g s t with h0 | ⟨mid, hmid, hchain, _⟩
  · exact absurd h0 h
  · rw [hmid] at hchain
    exact chain'_reach mid s t hchain

/-- C4: when no path of strictly-positive-residual edges leads from the
source to the sink, `max_flow` returns `0.0` and the graph — in
particular every edge's `flow` — is left completely unchanged. -/
theorem max_flow_disconnected (g : Grf) (s t si ti : Nat) (fuel : Nat)
    (hs : g.idx_map.lookup s = some si) (ht : g.idx_map.lookup t = some ti)
    (hnr : ¬ Relation.ReflTransGen (ResStep g) si ti) (hf : 1 ≤ fuel) :
    g.max_flow s t fuel = some (g, 0) := by
  have hfp : g.find_path si ti = [] := by
    by_contra hne
    exact hnr (find_path_reach g hne)
  unfold Grf.max_flow
  rw [hs, ht]
  obtain ⟨fuel2, rfl⟩ : ∃ f2, fuel = f2 + 1 := ⟨fuel - 1, by omega⟩
  show maxFlowLoop si ti (fuel2 + 1) g 0 = some (g, 0)
  rw [maxFlowLoop.eq_def]
  simp [hfp]

/-- C4 witness: on a two-node graph with no edges at all (source and sink
in separate components), `max_flow 1 2` returns `0` and the graph is
unchanged. -/
theorem max_flow_disconnected_witness :
    (((Grf.new.add_nd 1 0 0 0).1.add_nd 2 0 0 0).1.max_flow 1 2 5) =
      some (((Grf.new.add_nd 1 0 0 0).1.add_nd 2 0 0 0).1, 0) := by
  apply max_flow_disconnected (((Grf.new.add_nd 1 0 0 0).1.add_nd 2 0 0 0).1)
    1 2 0 1 5 rfl rfl ?_ (by omega)
  intro h
  rcases Relation.ReflTransGen.cases_head h with heq | ⟨c, hstep, _⟩
  · exact absurd heq (by decide)
  · obtain ⟨e, he, _⟩ := hstep
    exact absurd he (by simp [Grf.new, Grf.add_nd])

/-! ## Lemmas about the augmentation pass of `Grf::max_flow` -/

theorem pairsOf_cons (u v : Nat) (rest : List Nat) :
    pairsOf (u :: v :: rest) = (u, v) :: pairsOf (v :: rest) := rfl

theorem augment_nds :
    ∀ {p : List Nat} {g g' : Grf} {d : ℚ},
      g.augment d p = some g' → g'.nds = g.nds := by
  intro p
  induction p with
  | nil =>
    intro g g' d h
    simp only [Grf.augment] at h
    rw [← Option.some.inj h]
  | cons u rest ih =>
    intro g g' d h
    cases rest with
    | nil =>
      simp only [Grf.augment] at h
      rw [← Option.some.inj h]
    | cons v rest2 =>
      simp only [Grf.augment] at h
      cases hf : g.find_edge u v with
      | none => rw [hf] at h; exact absurd h (by simp)
      | some i =>
        rw [hf] at h
        rw [ih h, addFlow_nds]

theorem augment_idx :
    ∀ {p : List Nat} {g g' : Grf} {d : ℚ},
      g.augment d p = some g' → g'.idx_map = g.idx_map := by
  intro p
  induction p with
  | nil =>
    intro g g' d h
    simp only [Grf.augment] at h
    rw [← Option.some.inj h]
  | cons u rest ih =>
    intro g g' d h
    cases rest with
    | nil =>
      simp only [Grf.augment] at h
      rw [← Option.some.inj h]
    | cons v rest2 =>
      simp only [Grf.augment] at h
      cases hf : g.find_edge u v with
      | none => rw [hf] at h; exact absurd h (by simp)
      | some i =>
        rw [hf] at h
        rw [ih h, addFlow_idx]

theorem augment_strip :
    ∀ {p : List Nat} {g g' : Grf} {d : ℚ},
      g.augment d p = some g' → stripE g'.eds = stripE g.eds := by
  intro p
  induction p with
  | nil =>
    intro g g' d h
    simp only [Grf.augment] at h
    rw [← Option.some.inj h]
  | cons u rest ih =>
    intro g g' d h
    cases rest with
    | nil =>
      simp only [Grf.augment] at h
      rw [← Option.some.inj h]
    | cons v rest2 =>
      simp only [Grf.augment] at h
      cases hf : g.find_edge u v with
      | none => rw [hf] at h; exact absurd h (by simp)
      | some i =>
        rw [hf] at h
        rw [ih h, addFlow_strip]

theorem augment_isSome :
    ∀ {p : List Nat} (g : Grf) (d : ℚ),
      (∀ pr ∈ pairsOf p, (g.find_edge pr.1 pr.2).isSome) →
      (g.augment d p).isSome := by
  intro p
  induction p with
  | nil => intro g d _; simp [Grf.augment]
  | cons u rest ih =>
    intro g d hfe
    cases rest with
    | nil => simp [Grf.augment]
    | cons v rest2 =>
      simp only [Grf.augment]
      cases hf : g.find_edge u v with
      | none =>
        have := hfe (u, v) (by rw [pairsOf_cons]; simp)
        rw [hf] at this
        exact absurd this (by simp)
      | some i =>
        apply ih
        intro pr hpr
        rw [find_edge_congr (addFlow_strip g i d) pr.1 pr.2]
        exact hfe pr (by rw [pairsOf_cons]; exact List.mem_cons_of_mem _ hpr)

theorem augment_inflow :
    ∀ {p : List Nat} {g g' : Grf} {d : ℚ},
      g.augment d p = some g' → ∀ w,
      inflow g' w = inflow g w + d * (p.tail.count w : ℚ) := by
  intro p
  induction p with
  | nil =>
    intro g g' d h w
    simp only [Grf.augment] at h
    rw [← Option.some.inj h]
    simp
  | cons u rest ih =>
    intro g g' d h w
    cases rest with
    | nil =>
      simp only [Grf.augment] at h
      rw [← Option.some.inj h]
      simp
    | cons v rest2 =>
      simp only [Grf.augment] at h
      cases hf : g.find_edge u v with
      | none => rw [hf] at h; exact absurd h (by simp)
      | some i =>
        rw [hf] at h
        obtain ⟨ed, hied⟩ := find_edge_spec hf
        have h1 := inflow_addFlow hied d w
        have h2 := ih h w
        rw [h2, h1]
        simp only [List.tail_cons, List.count_cons]
        by_cases hvw : v = w
        · simp only [if_pos hvw, hvw, beq_self_eq_true, if_true]
          push_cast
          ring
        · have hbv : (v == w) = false := by simp [hvw]
          simp only [if_neg hvw, hbv]
          push_cast
          ring

theorem augment_outflow :
    ∀ {p : List Nat} {g g' : Grf} {d : ℚ},
      g.augment d p = some g' → ∀ w,
      outflow g' w = outflow g w + d * (p.dropLast.count w : ℚ) := by
  intro p
  induction p with
  | nil =>
    intro g g' d h w
    simp only [Grf.augment] at h
    rw [← Option.some.inj h]
    simp
  | cons u rest ih =>
    intro g g' d h w
    cases rest with
    | nil =>
      simp only [Grf.augment] at h
      rw [← Option.some.inj h]
      simp
    | cons v rest2 =>
      simp only [Grf.augment] at h
      cases hf : g.find_edge u v with
      | none => rw [hf] at h; exact absurd h (by simp)
      | some i =>
        rw [hf] at h
        obtain ⟨ed, hied⟩ := find_edge_spec hf
        have h1 := outflow_addFlow hied d w
        have h2 := ih h w
        rw [h2, h1, List.dropLast_cons₂, List.count_cons]
        by_cases huw : u = w
        · simp only [if_pos huw, huw, beq_self_eq_true, if_true]
          push_cast
          ring
        · have hbu : (u == w) = false := by simp [huw]
          simp only [if_neg huw, hbu]
          push_cast
          ring

theorem edAt_eq {g : Grf} {i : Nat} {e : Nat × Nat × Ed}
    (h : g.eds.get? i = some e) : g.edAt i = e.2.2 := by
  unfold Grf.edAt
  rw [h]
  rfl

theorem residAt_addFlow_ne {g : Grf} {i : Nat} {e : Nat × Nat × Ed}
    (h : g.eds.get? i = some e) (d : ℚ) {j : Nat} (hne : j ≠ i) :
    (g.addFlow i d).residAt j = g.residAt j := by
  unfold Grf.residAt Grf.edAt
  rw [addFlow_get? h d j, if_neg hne]

theorem chain'_pairs {R : Nat → Nat → Prop} :
    ∀ {p : List Nat}, List.Chain' R p → ∀ pr ∈ pairsOf p, R pr.1 pr.2 := by
  intro p
  induction p with
  | nil => intro _ pr hpr; simp [pairsOf] at hpr
  | cons u rest ih =>
    intro hc pr hpr
    cases rest with
    | nil => simp [pairsOf] at hpr
    | cons v rest2 =>
      rw [pairsOf_cons] at hpr
      rcases List.mem_cons.1 hpr with rfl | hpr
      · exact (List.chain'_cons.1 hc).1
      · exact ih (List.chain'_cons.1 hc).2 pr hpr

theorem pairs_fst_mem_dropLast :
    ∀ {p : List Nat} {pr : Nat × Nat}, pr ∈ pairsOf p → pr.1 ∈ p.dropLast := by
  intro p
  induction p with
  | nil => intro pr hpr; simp [pairsOf] at hpr
  | cons u rest ih =>
    intro pr hpr
    cases rest with
    | nil => simp [pairsOf] at hpr
    | cons v rest2 =>
      rw [pairsOf_cons] at hpr
      rw [List.dropLast_cons₂]
      rcases List.mem_cons.1 hpr with rfl | hpr
      · simp
      · exact List.mem_cons_of_mem _ (ih hpr)

theorem pairs_snd_mem_tail :
    ∀ {p : List Nat} {pr : Nat × Nat}, pr ∈ pairsOf p → pr.2 ∈ p.tail := by
  intro p
  induction p with
  | nil => intro pr hpr; simp [pairsOf] at hpr
  | cons u rest ih =>
    intro pr hpr
    cases rest with
    | nil => simp [pairsOf] at hpr
    | cons v rest2 =>
      rw [pairsOf_cons] at hpr
      rcases List.mem_cons.1 hpr with rfl | hpr
      · simp
      · exact List.mem_cons_of_mem _ (ih hpr)

theorem min_cap_le :
    ∀ {p : List Nat} {g : Grf} {d : ℚ}, g.min_cap p = some d →
      ∀ pr ∈ pairsOf p, ∀ i, g.find_edge pr.1 pr.2 = some i →
        d ≤ g.residAt i := by
  intro p
  induction p with
  | nil => intro g d h; simp [Grf.min_cap] at h
  | cons u rest ih =>
    intro g d h pr hpr i hi
    cases rest with
    | nil => simp [Grf.min_cap] at h
    | cons v rest2 =>
      cases rest2 with
      | nil =>
        simp only [Grf.min_cap] at h
        rw [pairsOf_cons] at hpr
        rcases List.mem_cons.1 hpr with rfl | hpr2
        · cases hf : g.find_edge u v with
          | none => rw [hf] at h; simp at h
          | some i0 =>
            rw [hf] at h
            simp only [Option.map_some', Option.some.injEq] at h
            have : i = i0 := Option.some.inj ((hf ▸ hi : (some i0 : Option Nat) = some i)).symm
            rw [this, ← h]
        · simp [pairsOf] at hpr2
      | cons w rest3 =>
        simp only [Grf.min_cap] at h
        cases hf : g.find_edge u v with
        | none => rw [hf] at h; simp at h
        | some i0 =>
          rw [hf] at h
          cases hm : g.min_cap (v :: w :: rest3) with
          | none => rw [hm] at h; simp at h
          | some m =>
            rw [hm] at h
            simp only [Option.some.injEq] at h
            rw [pairsOf_cons] at hpr
            rcases List.mem_cons.1 hpr with rfl | hpr2
            · have : i = i0 := Option.some.inj ((hf ▸ hi : (some i0 : Option Nat) = some i)).symm
              rw [this, ← h]
              exact min_le_left _ _
            · calc d = min (g.residAt i0) m := h.symm
                _ ≤ m := min_le_right _ _
                _ ≤ g.residAt i := ih hm pr hpr2 i hi

theorem min_cap_mem :
    ∀ {p : List Nat} {g : Grf} {d : ℚ}, g.min_cap p = some d →
      ∃ pr ∈ pairsOf p, ∃ i, g.find_edge pr.1 pr.2 = some i ∧
        d = g.residAt i := by
  intro p
  induction p with
  | nil => intro g d h; simp [Grf.min_cap] at h
  | cons u rest ih =>
    intro g d h
    cases rest with
    | nil => simp [Grf.min_cap] at h
    | cons v rest2 =>
      cases rest2 with
      | nil =>
        simp only [Grf.min_cap] at h
        cases hf : g.find_edge u v with
        | none => rw [hf] at h; simp at h
        | some i0 =>
          rw [hf] at h
          simp only [Option.map_some', Option.some.injEq] at h
          exact ⟨(u, v), by rw [pairsOf_cons]; simp, i0, hf, h.symm⟩
      | cons w rest3 =>
        simp only [Grf.min_cap] at h
        cases hf : g.find_edge u v with
        | none => rw [hf] at h; simp at h
        | some i0 =>
          rw [hf] at h
          cases hm : g.min_cap (v :: w :: rest3) with
          | none => rw [hm] at h; simp at h
          | some m =>
            rw [hm] at h
            simp only [Option.some.injEq] at h
            rcases min_cases (g.residAt i0) m with ⟨hmin, _⟩ | ⟨hmin, _⟩
            · exact ⟨(u, v), by rw [pairsOf_cons]; simp, i0, hf,
                by rw [← h, hmin]⟩
            · obtain ⟨pr, hpr, i, hfi, hdi⟩ := ih hm
              exact ⟨pr, by rw [pairsOf_cons]; exact List.mem_cons_of_mem _ hpr,
                i, hfi, by rw [← h, hmin, hdi]⟩

theorem min_cap_isSome :
    ∀ {rest : List Nat} {u v : Nat} {g : Grf},
      (∀ pr ∈ pairsOf (u :: v :: rest), (g.find_edge pr.1 pr.2).isSome) →
      (g.min_cap (u :: v :: rest)).isSome := by
  intro rest
  induction rest with
  | nil =>
    intro u v g hfe
    have := hfe (u, v) (by rw [pairsOf_cons]; simp)
    obtain ⟨i, hi⟩ := Option.isSome_iff_exists.1 this
    simp [Grf.min_cap, hi]
  | cons w rest3 ih =>
    intro u v g hfe
    have h1 := hfe (u, v) (by rw [pairsOf_cons]; simp)
    obtain ⟨i, hi⟩ := Option.isSome_iff_exists.1 h1
    have h2 := ih (fun pr hpr =>
      hfe pr (by rw [pairsOf_cons]; exact List.mem_cons_of_mem _ hpr))
    obtain ⟨m, hm⟩ := Option.isSome_iff_exists.1 h2
    simp only [Grf.min_cap, hi, hm]
    rfl

theorem augment_bounds :
    ∀ {p : List Nat} {g g' : Grf} {d : ℚ},
      g.augment d p = some g' → 0 ≤ d →
      (∀ pr ∈ pairsOf p, ∀ i, g.find_edge pr.1 pr.2 = some i →
        d ≤ g.residAt i) →
      (∀ e ∈ g.eds, 0 ≤ e.2.2.flow ∧ e.2.2.flow ≤ e.2.2.wt) →
      p.dropLast.Nodup →
      ∀ e ∈ g'.eds, 0 ≤ e.2.2.flow ∧ e.2.2.flow ≤ e.2.2.wt := by
  intro p
  induction p with
  | nil =>
    intro g g' d h _ _ hb _
    simp only [Grf.augment] at h
    rw [← Option.some.inj h]
    exact hb
  | cons u rest ih =>
    intro g g' d h hd hmin hb hnd
    cases rest with
    | nil =>
      simp only [Grf.augment] at h
      rw [← Option.some.inj h]
      exact hb
    | cons v rest2 =>
      simp only [Grf.augment] at h
      cases hf : g.find_edge u v with
      | none => rw [hf] at h; exact absurd h (by simp)
      | some i =>
        rw [hf] at h
        obtain ⟨ed, hied⟩ := find_edge_spec hf
        rw [List.dropLast_cons₂, List.nodup_cons] at hnd
        have hdle : d ≤ ed.wt - ed.flow := by
          have := hmin (u, v) (by rw [pairsOf_cons]; simp) i hf
          rwa [Grf.residAt, edAt_eq hied] at this
        refine ih h hd ?_ ?_ hnd.2
        · intro pr hpr j hj
          have hjg : g.find_edge pr.1 pr.2 = some j := by
            rw [← find_edge_congr (addFlow_strip g i d) pr.1 pr.2]
            exact hj
          have hji : j ≠ i := by
            intro hji
            obtain ⟨ed2, hjed⟩ := find_edge_spec hjg
            rw [hji, hied] at hjed
            have hpu : pr.1 = u :=
              (congrArg Prod.fst (Option.some.inj hjed)).symm
            exact hnd.1 (hpu ▸ pairs_fst_mem_dropLast hpr)
          rw [residAt_addFlow_ne hied d hji]
          exact hmin pr (by rw [pairsOf_cons]; exact List.mem_cons_of_mem _ hpr)
            j hjg
        · intro e he
          rw [addFlow_eds hied d] at he
          rcases List.mem_or_eq_of_mem_set he with he | he
          · exact hb e he
          · subst he
            have hbe := hb (u, v, ed) (List.get?_mem hied)
            have hb1 : (0 : ℚ) ≤ ed.flow := hbe.1
            have hb2 : ed.flow ≤ ed.wt := hbe.2
            constructor
            · show (0 : ℚ) ≤ ed.flow + d
              linarith
            · show ed.flow + d ≤ ed.wt
              linarith

theorem inflow_zero {g : Grf} (h : ∀ e ∈ g.eds, e.2.2.flow = 0) (v : Nat) :
    inflow g v = 0 := by
  unfold inflow
  apply List.sum_eq_zero
  intro x hx
  obtain ⟨e, he, rfl⟩ := List.mem_map.1 hx
  exact h e (List.mem_of_mem_filter he)

theorem outflow_zero {g : Grf} (h : ∀ e ∈ g.eds, e.2.2.flow = 0) (v : Nat) :
    outflow g v = 0 := by
  unfold outflow
  apply List.sum_eq_zero
  intro x hx
  obtain ⟨e, he, rfl⟩ := List.mem_map.1 hx
  exact h e (List.mem_of_mem_filter he)

theorem maxFlow_step (si ti : Nat) (g0 g : Grf) (fl : ℚ)
    (hinv : FlowInv si ti g0 g fl) (hp : g.find_path si ti ≠ []) :
    ∃ δ g3, g.min_cap (g.find_path si ti) = some δ ∧ 0 ≤ δ ∧
      g.augment δ (g.find_path si ti) = some g3 ∧
      (g.find_path si ti).dropLast.Nodup ∧
      FlowInv si ti g0 g3 (fl + δ) := by
  rcases find_path_spec g si ti with h0 | ⟨mid, hmid, hchain, hnodup⟩
  · exact absurd h0 hp
  have hfe : ∀ pr ∈ pairsOf (g.find_path si ti),
      (g.find_edge pr.1 pr.2).isSome := by
    intro pr hpr
    obtain ⟨e, he, hsrc, htgt, _⟩ := chain'_pairs hchain pr hpr
    exact find_edge_isSome he hsrc htgt
  have hmc : (g.min_cap (g.find_path si ti)).isSome := by
    cases hcons : mid ++ [ti] with
    | nil => exact absurd hcons (by simp)
    | cons v rest =>
      have hp2 : g.find_path si ti = si :: v :: rest := by
        rw [hmid, List.cons_append, hcons]
      rw [hp2] at hfe ⊢
      exact min_cap_isSome hfe
  obtain ⟨δ, hδ⟩ := Option.isSome_iff_exists.1 hmc
  obtain ⟨g3, hg3⟩ :=
    Option.isSome_iff_exists.1 (augment_isSome g δ hfe)
  obtain ⟨pr0, hpr0, i0, hfi0, hdi0⟩ := min_cap_mem hδ
  obtain ⟨ed0, hied0⟩ := find_edge_spec hfi0
  have hbe0 := hinv.bounds _ (List.get?_mem hied0)
  have hδ0 : 0 ≤ δ := by
    rw [hdi0, Grf.residAt, edAt_eq hied0]
    have : (ed0.flow : ℚ) ≤ ed0.wt := hbe0.2
    linarith
  have htl : (g.find_path si ti).tail = mid ++ [ti] := by
    rw [hmid, List.cons_append]; rfl
  have hdl : (g.find_path si ti).dropLast = si :: mid := by
    rw [hmid, List.dropLast_concat]
  have hdln : (g.find_path si ti).dropLast.Nodup :=
    (List.dropLast_sublist _).nodup hnodup
  rw [hmid, List.cons_append, List.nodup_cons] at hnodup
  have hsimid : si ∉ mid := fun hh => hnodup.1 (List.mem_append_left _ hh)
  have hsiti : si ≠ ti := fun hh => hnodup.1 (by simp [hh])
  refine ⟨δ, g3, hδ, hδ0, hg3, hdln, ?_⟩
  refine ⟨(augment_nds hg3).trans hinv.nds_eq,
    (augment_idx hg3).trans hinv.idx_eq,
    (augment_strip hg3).trans hinv.strip_eq,
    augment_bounds hg3 hδ0 (min_cap_le hδ) hinv.bounds hdln,
    ?_, ?_, ?_⟩
  · intro v hv1 hv2
    rw [augment_inflow hg3 v, augment_outflow hg3 v, htl, hdl,
      hinv.conserve v hv1 hv2]
    have e2 : List.count v [ti] = 0 :=
      List.count_eq_zero_of_not_mem (by simp [hv2])
    have e3 : List.count v (si :: mid) = List.count v mid := by
      rw [List.count_cons]
      simp [hv1, Ne.symm hv1]
    have hc : List.count v (mid ++ [ti]) = List.count v (si :: mid) := by
      rw [List.count_append, e2, e3]
      omega
    rw [hc]
  · rw [augment_outflow hg3 si, hdl, ← hinv.value]
    have hc : List.count si (si :: mid) = 1 := by
      rw [List.count_cons]
      rw [List.count_eq_zero_of_not_mem hsimid]
      simp
    rw [hc]
    push_cast
    ring
  · rw [augment_inflow hg3 si, htl, hinv.srcIn]
    have hc : List.count si (mid ++ [ti]) = 0 := by
      rw [List.count_append,
        List.count_eq_zero_of_not_mem hsimid,
        List.count_eq_zero_of_not_mem (by simp [hsiti])]
    rw [hc]
    simp

theorem maxFlowLoop_inv (si ti : Nat) (g0 : Grf) :
    ∀ (fuel : Nat) (g : Grf) (fl : ℚ), FlowInv si ti g0 g fl →
      ∀ {g2 : Grf} {f : ℚ}, maxFlowLoop si ti fuel g fl = some (g2, f) →
      FlowInv si ti g0 g2 f := by
  intro fuel
  induction fuel with
  | zero =>
    intro g fl hinv g2 f h
    exact absurd h (by simp [maxFlowLoop])
  | succ fuel ih =>
    intro g fl hinv g2 f h
    by_cases hp : g.find_path si ti = []
    · have heq : maxFlowLoop si ti (fuel + 1) g fl = some (g, fl) := by
        rw [maxFlowLoop.eq_def]
        simp [hp]
      rw [heq] at h
      have h1 : g = g2 := congrArg Prod.fst (Option.some.inj h)
      have h2 : fl = f := congrArg Prod.snd (Option.some.inj h)
      exact h1 ▸ h2 ▸ hinv
    · obtain ⟨δ, g3, hδ, hδ0, hg3, hdln, hinv3⟩ :=
        maxFlow_step si ti g0 g fl hinv hp
      have hstep : maxFlowLoop si ti (fuel + 1) g fl =
          maxFlowLoop si ti fuel g3 (fl + δ) := by
        rw [maxFlowLoop.eq_def]
        simp [hp, hδ, hg3]
      rw [hstep] at h
      exact ih g3 (fl + δ) hinv3 h

/-- C2: for every graph with nonnegative capacities, zero initial flows
and registered source and sink, when `max_flow` returns, every node other
than source and sink conserves flow (inflow equals outflow) and every
edge satisfies `0 ≤ flow ≤ capacity`. -/
theorem max_flow_conservation (g : Grf) (s t si ti fuel : Nat) (g2 : Grf)
    (f : ℚ) (hs : g.idx_map.lookup s = some si)
    (ht : g.idx_map.lookup t = some ti)
    (hcap : ∀ e ∈ g.eds, 0 ≤ e.2.2.wt)
    (h0 : ∀ e ∈ g.eds, e.2.2.flow = 0)
    (hrun : g.max_flow s t fuel = some (g2, f)) :
    (∀ v, v ≠ si → v ≠ ti → inflow g2 v = outflow g2 v) ∧
    (∀ e ∈ g2.eds, 0 ≤ e.2.2.flow ∧ e.2.2.flow ≤ e.2.2.wt) := by
  have hinv0 : FlowInv si ti g g 0 := by
    refine ⟨rfl, rfl, rfl, ?_, ?_, ?_, ?_⟩
    · intro e he
      rw [h0 e he]
      exact ⟨le_refl 0, hcap e he⟩
    · intro v _ _
      rw [inflow_zero h0, outflow_zero h0]
    · rw [outflow_zero h0]
    · exact inflow_zero h0 si
  have hloop : maxFlowLoop si ti fuel g 0 = some (g2, f) := by
    unfold Grf.max_flow at hrun
    rw [hs, ht] at hrun
    exact hrun
  have hfin := maxFlowLoop_inv si ti g fuel g 0 hinv0 hloop
  exact ⟨hfin.conserve, hfin.bounds⟩

/-- C2 witness: on the three-node chain `1 → 2 → 3` with capacities 2 and
1, `max_flow 1 3` pushes one unit; the middle node conserves flow and
both edges respect their capacity bounds. -/
theorem max_flow_conservation_witness :
    (∀ v, v ≠ 0 → v ≠ 2 →
      inflow ⟨[⟨1, 0, 0, 0⟩, ⟨2, 0, 0, 0⟩, ⟨3, 0, 0, 0⟩],
        [(0, 1, ⟨2, 1⟩), (1, 2, ⟨1, 1⟩)], [(3, 2), (2, 1), (1, 0)]⟩ v =
      outflow ⟨[⟨1, 0, 0, 0⟩, ⟨2, 0, 0, 0⟩, ⟨3, 0, 0, 0⟩],
        [(0, 1, ⟨2, 1⟩), (1, 2, ⟨1, 1⟩)], [(3, 2), (2, 1), (1, 0)]⟩ v) ∧
    (∀ e ∈ (⟨[⟨1, 0, 0, 0⟩, ⟨2, 0, 0, 0⟩, ⟨3, 0, 0, 0⟩],
        [(0, 1, ⟨2, 1⟩), (1, 2, ⟨1, 1⟩)], [(3, 2), (2, 1), (1, 0)]⟩ : Grf).eds,
      0 ≤ e.2.2.flow ∧ e.2.2.flow ≤ e.2.2.wt) := by
  exact max_flow_conservation
    ⟨[⟨1, 0, 0, 0⟩, ⟨2, 0, 0, 0⟩, ⟨3, 0, 0, 0⟩],
      [(0, 1, ⟨2, 0⟩), (1, 2, ⟨1, 0⟩)], [(3, 2), (2, 1), (1, 0)]⟩
    1 3 0 2 4
    ⟨[⟨1, 0, 0, 0⟩, ⟨2, 0, 0, 0⟩, ⟨3, 0, 0, 0⟩],
      [(0, 1, ⟨2, 1⟩), (1, 2, ⟨1, 1⟩)], [(3, 2), (2, 1), (1, 0)]⟩
    1 rfl rfl (by decide) (by decide) (by decide)

/-! ## Termination machinery for `Grf::max_flow` without parallel edges -/

theorem strip_length {l1 l2 : List (Nat × Nat × Ed)}
    (h : stripE l1 = stripE l2) : l1.length = l2.length := by
  have := congrArg List.length h
  simpa [stripE] using this

theorem nopar_of_strip {g1 g2 : Grf} (h : stripE g1.eds = stripE g2.eds)
    (hnp : NoPar g2) : NoPar g1 := by
  unfold NoPar at hnp ⊢
  have h1 : g1.eds.map (fun e => (e.1, e.2.1)) =
      (stripE g1.eds).map (fun e => (e.1, e.2.1)) := by
    unfold stripE
    rw [List.map_map]
    rfl
  have h2 : g2.eds.map (fun e => (e.1, e.2.1)) =
      (stripE g2.eds).map (fun e => (e.1, e.2.1)) := by
    unfold stripE
    rw [List.map_map]
    rfl
  rw [h1, h]
  rw [h2] at hnp
  exact hnp

theorem residAt_addFlow_self {g : Grf} {i : Nat} {e : Nat × Nat × Ed}
    (h : g.eds.get? i = some e) (d : ℚ) :
    (g.addFlow i d).residAt i = g.residAt i - d := by
  unfold Grf.residAt
  rw [edAt_eq h, edAt_eq (by rw [addFlow_get? h d i, if_pos rfl])]
  show e.2.2.wt - (e.2.2.flow + d) = e.2.2.wt - e.2.2.flow - d
  ring

theorem augment_resid_mono :
    ∀ {p : List Nat} {g g3 : Grf} {d : ℚ},
      g.augment d p = some g3 → 0 ≤ d →
      ∀ j, g3.residAt j ≤ g.residAt j := by
  intro p
  induction p with
  | nil =>
    intro g g3 d h _ j
    simp only [Grf.augment] at h
    rw [← Option.some.inj h]
  | cons u rest ih =>
    intro g g3 d h hd j
    cases rest with
    | nil =>
      simp only [Grf.augment] at h
      rw [← Option.some.inj h]
    | cons v rest2 =>
      simp only [Grf.augment] at h
      cases hf : g.find_edge u v with
      | none => rw [hf] at h; exact absurd h (by simp)
      | some i =>
        rw [hf] at h
        obtain ⟨ed, hied⟩ := find_edge_spec hf
        refine le_trans (ih h hd j) ?_
        by_cases hji : j = i
        · subst hji
          rw [residAt_addFlow_self hied d]
          linarith
        · rw [residAt_addFlow_ne hied d hji]

theorem augment_get?_unsel :
    ∀ {p : List Nat} {g g3 : Grf} {d : ℚ},
      g.augment d p = some g3 →
      ∀ {j : Nat},
        (∀ pr ∈ pairsOf p, ∀ i, g.find_edge pr.1 pr.2 = some i → i ≠ j) →
        g3.eds.get? j = g.eds.get? j := by
  intro p
  induction p with
  | nil =>
    intro g g3 d h j _
    simp only [Grf.augment] at h
    rw [← Option.some.inj h]
  | cons u rest ih =>
    intro g g3 d h j hns
    cases rest with
    | nil =>
      simp only [Grf.augment] at h
      rw [← Option.some.inj h]
    | cons v rest2 =>
      simp only [Grf.augment] at h
      cases hf : g.find_edge u v with
      | none => rw [hf] at h; exact absurd h (by simp)
      | some i =>
        rw [hf] at h
        obtain ⟨ed, hied⟩ := find_edge_spec hf
        have hij : i ≠ j := hns (u, v) (by rw [pairsOf_cons]; simp) i hf
        have h1 : (g.addFlow i d).eds.get? j = g.eds.get? j := by
          rw [addFlow_get? hied d j, if_neg (fun hh => hij hh.symm)]
        rw [← h1]
        refine ih h ?_
        intro pr hpr i2 hi2
        refine hns pr (by rw [pairsOf_cons]; exact List.mem_cons_of_mem _ hpr)
          i2 ?_
        rw [← find_edge_congr (addFlow_strip g i d) pr.1 pr.2]
        exact hi2

theorem augment_get?_sel :
    ∀ {p : List Nat} {g g3 : Grf} {d : ℚ},
      g.augment d p = some g3 → p.dropLast.Nodup →
      ∀ {pr0 : Nat × Nat}, pr0 ∈ pairsOf p →
      ∀ {j : Nat} {e : Nat × Nat × Ed},
        g.find_edge pr0.1 pr0.2 = some j → g.eds.get? j = some e →
        g3.eds.get? j = some (e.1, e.2.1, ⟨e.2.2.wt, e.2.2.flow + d⟩) := by
  intro p
  induction p with
  | nil =>
    intro g g3 d _ _ pr0 hpr0
    simp [pairsOf] at hpr0
  | cons u rest ih =>
    intro g g3 d h hnd pr0 hpr0 j e hfj hje
    cases rest with
    | nil => simp [pairsOf] at hpr0
    | cons v rest2 =>
      simp only [Grf.augment] at h
      cases hf : g.find_edge u v with
      | none => rw [hf] at h; exact absurd h (by simp)
      | some i =>
        rw [hf] at h
        obtain ⟨ed, hied⟩ := find_edge_spec hf
        rw [List.dropLast_cons₂, List.nodup_cons] at hnd
        rw [pairsOf_cons] at hpr0
        rcases List.mem_cons.1 hpr0 with rfl | hpr0
        · have hji : j = i := Option.some.inj (hfj.symm.trans hf)
          subst hji
          have hee : e = (u, v, ed) := Option.some.inj (hje.symm.trans hied)
          subst hee
          have h1 : (g.addFlow j d).eds.get? j =
              some (u, v, ⟨ed.wt, ed.flow + d⟩) := by
            rw [addFlow_get? hied d j, if_pos rfl]
          have h2 : g3.eds.get? j = (g.addFlow j d).eds.get? j := by
            refine augment_get?_unsel h ?_
            intro pr hpr i2 hi2 hij
            subst hij
            have hig : g.find_edge pr.1 pr.2 = some i2 := by
              rw [← find_edge_congr (addFlow_strip g i2 d) pr.1 pr.2]
              exact hi2
            obtain ⟨ed2, hied2⟩ := find_edge_spec hig
            have hpu : pr.1 = u :=
              (congrArg Prod.fst (Option.some.inj (hied2.symm.trans hied)))
            exact hnd.1 (hpu ▸ pairs_fst_mem_dropLast hpr)
          rw [h2, h1]
        · have hji : j ≠ i := by
            intro hji
            obtain ⟨ed2, hied2⟩ := find_edge_spec hfj
            rw [hji] at hied2
            have hpu : pr0.1 = u :=
              congrArg Prod.fst (Option.some.inj (hied2.symm.trans hied))
            exact hnd.1 (hpu ▸ pairs_fst_mem_dropLast hpr0)
          have h1 : (g.addFlow i d).eds.get? j = some e := by
            rw [addFlow_get? hied d j, if_neg hji]
            exact hje
          refine ih h hnd.2 hpr0 ?_ h1
          rw [find_edge_congr (addFlow_strip g i d) pr0.1 pr0.2]
          exact hfj

theorem min_cap_pos {g : Grf} (hnp : NoPar g) {p : List Nat} {d : ℚ}
    (hchain : List.Chain' (ResStep g) p) (hd : g.min_cap p = some d) :
    0 < d := by
  obtain ⟨pr, hpr, i, hfi, hdi⟩ := min_cap_mem hd
  obtain ⟨e, he, hsrc, htgt, hres⟩ := chain'_pairs hchain pr hpr
  obtain ⟨j, hj⟩ := List.mem_iff_get?.1 he
  have hfj : g.find_edge pr.1 pr.2 = some j := find_edge_nopar hnp hj hsrc htgt
  have hij : i = j := Option.some.inj (hfi.symm.trans hfj)
  subst hij
  rw [hdi, Grf.residAt, edAt_eq hj]
  linarith

theorem augment_unsat {g g3 : Grf} {d : ℚ} {p : List Nat}
    (haug : g.augment d p = some g3) (hd : 0 < d) (hnd : p.dropLast.Nodup)
    (hmem : ∃ pr ∈ pairsOf p, ∃ i, g.find_edge pr.1 pr.2 = some i ∧
      d = g.residAt i) :
    unsatC g3 < unsatC g := by
  obtain ⟨pr0, hpr0, i0, hfi0, hdi0⟩ := hmem
  obtain ⟨ed0, hied0⟩ := find_edge_spec hfi0
  have hlen : g3.eds.length = g.eds.length :=
    strip_length (augment_strip haug)
  have hmono := augment_resid_mono haug (le_of_lt hd)
  have hi0lt : i0 < g.eds.length := (List.get?_eq_some.1 hied0).1
  have hdval : d = ed0.wt - ed0.flow := by
    rw [hdi0, Grf.residAt, edAt_eq hied0]
  have hsel := augment_get?_sel haug hnd hpr0 hfi0 hied0
  have hres3 : g3.residAt i0 = 0 := by
    rw [Grf.residAt, edAt_eq hsel]
    show ed0.wt - (ed0.flow + d) = 0
    rw [hdval]
    ring
  unfold unsatC
  rw [hlen]
  apply Finset.card_lt_card
  rw [Finset.ssubset_def]
  constructor
  · intro j hj
    rw [Finset.mem_filter] at hj ⊢
    exact ⟨hj.1, lt_of_lt_of_le hj.2 (hmono j)⟩
  · intro hsub
    have hg : i0 ∈ (Finset.range g.eds.length).filter
        (fun i => 0 < g.residAt i) := by
      rw [Finset.mem_filter]
      refine ⟨Finset.mem_range.2 hi0lt, ?_⟩
      rw [← hdi0]
      exact hd
    have hmem3 := hsub hg
    rw [Finset.mem_filter, hres3] at hmem3
    exact lt_irrefl 0 hmem3.2

theorem maxFlowLoop_total (si ti : Nat) (g0 : Grf) (hnp0 : NoPar g0) :
    ∀ (n : Nat) (g : Grf) (fl : ℚ), FlowInv si ti g0 g fl → unsatC g ≤ n →
      (maxFlowLoop si ti (n + 1) g fl).isSome := by
  intro n
  induction n with
  | zero =>
    intro g fl hinv hun
    by_cases hp : g.find_path si ti = []
    · rw [maxFlowLoop.eq_def]
      simp [hp]
    · exfalso
      rcases find_path_spec g si ti with h0 | ⟨mid, hmid, hchain, _⟩
      · exact hp h0
      have hpr : ∃ pr, pr ∈ pairsOf (g.find_path si ti) := by
        cases hcons : mid ++ [ti] with
        | nil => exact absurd hcons (by simp)
        | cons v rest =>
          refine ⟨(si, v), ?_⟩
          rw [hmid, List.cons_append, hcons, pairsOf_cons]
          simp
      obtain ⟨pr, hpr⟩ := hpr
      obtain ⟨e, he, _, _, hres⟩ := chain'_pairs hchain pr hpr
      obtain ⟨j, hj⟩ := List.mem_iff_get?.1 he
      have hjmem : j ∈ (Finset.range g.eds.length).filter
          (fun i => 0 < g.residAt i) := by
        rw [Finset.mem_filter]
        refine ⟨Finset.mem_range.2 (List.get?_eq_some.1 hj).1, ?_⟩
        rw [Grf.residAt, edAt_eq hj]
        linarith
      have : 0 < unsatC g := Finset.card_pos.2 ⟨j, hjmem⟩
      omega
  | succ n ih =>
    intro g fl hinv hun
    by_cases hp : g.find_path si ti = []
    · rw [maxFlowLoop.eq_def]
      simp [hp]
    · obtain ⟨δ, g3, hδ, hδ0, hg3, hdln, hinv3⟩ :=
        maxFlow_step si ti g0 g fl hinv hp
      have hnp : NoPar g := nopar_of_strip hinv.strip_eq hnp0
      rcases find_path_spec g si ti with h0 | ⟨mid, hmid, hchain, hnodup⟩
      · exact absurd h0 hp
      have hpos : 0 < δ := min_cap_pos hnp hchain hδ
      have hdec : unsatC g3 < unsatC g :=
        augment_unsat hg3 hpos hdln (min_cap_mem hδ)
      have hstep : maxFlowLoop si ti (n + 1 + 1) g fl =
          maxFlowLoop si ti (n + 1) g3 (fl + δ) := by
        rw [maxFlowLoop.eq_def]
        simp [hp, hδ, hg3]
      rw [hstep]
      exact ih g3 (fl + δ) hinv3 (by omega)

theorem capOut_eq_strip (g : Grf) (v : Nat) :
    capOut g v = (((stripE g.eds).filter (fun e => e.1 == v)).map
      (fun e => e.2.2)).sum := by
  unfold capOut stripE
  rw [List.filter_map, List.map_map]
  rfl

theorem capOut_congr {g1 g2 : Grf} (h : stripE g1.eds = stripE g2.eds)
    (v : Nat) : capOut g1 v = capOut g2 v := by
  rw [capOut_eq_strip, capOut_eq_strip, h]

theorem outflow_le_capOut {g : Grf}
    (hb : ∀ e ∈ g.eds, e.2.2.flow ≤ e.2.2.wt) (v : Nat) :
    outflow g v ≤ capOut g v := by
  unfold outflow capOut
  apply List.sum_le_sum
  intro e he
  exact hb e (List.mem_of_mem_filter he)

/-- C3 (amended): for every graph with nonnegative capacities, zero
initial flows, registered source and sink AND no parallel edges,
`max_flow` terminates with a total bounded by the capacity leaving the
source; moreover on every graph without parallel edges each iteration
that finds a path computes a strictly positive bottleneck (so the total
strictly increases each iteration). The original claim drops the
parallel-edge restriction and is refuted by
`max_flow_nonterminating_counterexample`. -/
theorem max_flow_terminates_nopar (g : Grf) (s t si ti : Nat)
    (hs : g.idx_map.lookup s = some si) (ht : g.idx_map.lookup t = some ti)
    (hnp : NoPar g) (hcap : ∀ e ∈ g.eds, 0 ≤ e.2.2.wt)
    (h0 : ∀ e ∈ g.eds, e.2.2.flow = 0) :
    (∃ fuel g2 f, g.max_flow s t fuel = some (g2, f) ∧ f ≤ capOut g si) ∧
    (∀ g1 : Grf, NoPar g1 → g1.find_path si ti ≠ [] →
      ∃ d, g1.min_cap (g1.find_path si ti) = some d ∧ 0 < d) := by
  constructor
  · have hinv0 : FlowInv si ti g g 0 := by
      refine ⟨rfl, rfl, rfl, ?_, ?_, ?_, ?_⟩
      · intro e he
        rw [h0 e he]
        exact ⟨le_refl 0, hcap e he⟩
      · intro v _ _
        rw [inflow_zero h0, outflow_zero h0]
      · rw [outflow_zero h0]
      · exact inflow_zero h0 si
    have htot := maxFlowLoop_total si ti g hnp (unsatC g) g 0 hinv0
      (le_refl _)
    obtain ⟨r, hrun⟩ := Option.isSome_iff_exists.1 htot
    obtain ⟨g2, f⟩ := r
    refine ⟨unsatC g + 1, g2, f, ?_, ?_⟩
    · unfold Grf.max_flow
      rw [hs, ht]
      exact hrun
    · have hfin := maxFlowLoop_inv si ti g (unsatC g + 1) g 0 hinv0 hrun
      rw [hfin.value]
      calc outflow g2 si
          ≤ capOut g2 si :=
            outflow_le_capOut (fun e he => (hfin.bounds e he).2) si
        _ = capOut g si := capOut_congr hfin.strip_eq si
  · intro g1 hnp1 hp1
    rcases find_path_spec g1 si ti with h0' | ⟨mid, hmid, hchain, _⟩
    · exact absurd h0' hp1
    have hfe : ∀ pr ∈ pairsOf (g1.find_path si ti),
        (g1.find_edge pr.1 pr.2).isSome := by
      intro pr hpr
      obtain ⟨e, he, hsrc, htgt, _⟩ := chain'_pairs hchain pr hpr
      exact find_edge_isSome he hsrc htgt
    have hmc : (g1.min_cap (g1.find_path si ti)).isSome := by
      cases hcons : mid ++ [ti] with
      | nil => exact absurd hcons (by simp)
      | cons v rest =>
        have hp2 : g1.find_path si ti = si :: v :: rest := by
          rw [hmid, List.cons_append, hcons]
        rw [hp2] at hfe ⊢
        exact min_cap_isSome hfe
    obtain ⟨d, hd⟩ := Option.isSome_iff_exists.1 hmc
    exact ⟨d, hd, min_cap_pos hnp1 hchain hd⟩

/-- C3 witness: the termination half of the amended claim applied to the
concrete four-node network of the specification (no parallel edges):
`max_flow 1 4` terminates and its total is bounded by the capacity
leaving the source. -/
theorem max_flow_terminates_nopar_witness :
    ∃ fuel g2 f,
      (⟨[⟨1, 0, 0, 0⟩, ⟨2, 0, 0, 0⟩, ⟨3, 0, 0, 0⟩, ⟨4, 0, 0, 0⟩],
        [(0, 1, ⟨3, 0⟩), (0, 2, ⟨2, 0⟩), (1, 3, ⟨2, 0⟩), (2, 3, ⟨3, 0⟩)],
        [(4, 3), (3, 2), (2, 1), (1, 0)]⟩ : Grf).max_flow 1 4 fuel =
        some (g2, f) ∧
      f ≤ capOut ⟨[⟨1, 0, 0, 0⟩, ⟨2, 0, 0, 0⟩, ⟨3, 0, 0, 0⟩, ⟨4, 0, 0, 0⟩],
        [(0, 1, ⟨3, 0⟩), (0, 2, ⟨2, 0⟩), (1, 3, ⟨2, 0⟩), (2, 3, ⟨3, 0⟩)],
        [(4, 3), (3, 2), (2, 1), (1, 0)]⟩ 0 :=
  (max_flow_terminates_nopar
    ⟨[⟨1, 0, 0, 0⟩, ⟨2, 0, 0, 0⟩, ⟨3, 0, 0, 0⟩, ⟨4, 0, 0, 0⟩],
      [(0, 1, ⟨3, 0⟩), (0, 2, ⟨2, 0⟩), (1, 3, ⟨2, 0⟩), (2, 3, ⟨3, 0⟩)],
      [(4, 3), (3, 2), (2, 1), (1, 0)]⟩
    1 4 0 3 rfl rfl (by unfold NoPar; decide) (by decide) (by decide)).1

/-- C3 counterexample: a graph with two parallel edges `1 → 2`, both of
capacity 1 (nonnegative, finite). After the first augmentation the BFS
still finds the path `1, 2` through the unsaturated older edge, but
`find_edge` returns the saturated newer edge, so the iteration's
bottleneck is `0` — not strictly positive — the total no longer
increases, and `compute_max_flow(1, 2)` loops forever: no fuel makes it
return. -/
theorem max_flow_nonterminating_counterexample :
    (¬ ∃ fuel,
      ((⟨[⟨1, 0, 0, 0⟩, ⟨2, 0, 0, 0⟩],
        [(0, 1, ⟨1, 0⟩), (0, 1, ⟨1, 0⟩)],
        [(2, 1), (1, 0)]⟩ : Grf).max_flow 1 2 fuel).isSome) ∧
    (⟨[⟨1, 0, 0, 0⟩, ⟨2, 0, 0, 0⟩],
        [(0, 1, ⟨1, 0⟩), (0, 1, ⟨1, 1⟩)],
        [(2, 1), (1, 0)]⟩ : Grf).find_path 0 1 = [0, 1] ∧
    (⟨[⟨1, 0, 0, 0⟩, ⟨2, 0, 0, 0⟩],
        [(0, 1, ⟨1, 0⟩), (0, 1, ⟨1, 1⟩)],
        [(2, 1), (1, 0)]⟩ : Grf).min_cap [0, 1] = some 0 := by
  have hfp2 : (⟨[⟨1, 0, 0, 0⟩, ⟨2, 0, 0, 0⟩],
      [(0, 1, ⟨1, 0⟩), (0, 1, ⟨1, 1⟩)],
      [(2, 1), (1, 0)]⟩ : Grf).find_path 0 1 = [0, 1] := by decide
  have hmc2 : (⟨[⟨1, 0, 0, 0⟩, ⟨2, 0, 0, 0⟩],
      [(0, 1, ⟨1, 0⟩), (0, 1, ⟨1, 1⟩)],
      [(2, 1), (1, 0)]⟩ : Grf).min_cap [0, 1] = some 0 := by decide
  have haug2 : (⟨[⟨1, 0, 0, 0⟩, ⟨2, 0, 0, 0⟩],
      [(0, 1, ⟨1, 0⟩), (0, 1, ⟨1, 1⟩)],
      [(2, 1), (1, 0)]⟩ : Grf).augment 0 [0, 1] =
      some ⟨[⟨1, 0, 0, 0⟩, ⟨2, 0, 0, 0⟩],
        [(0, 1, ⟨1, 0⟩), (0, 1, ⟨1, 1⟩)],
        [(2, 1), (1, 0)]⟩ := by decide
  have key : ∀ fuel fl, maxFlowLoop 0 1 fuel
      ⟨[⟨1, 0, 0, 0⟩, ⟨2, 0, 0, 0⟩],
        [(0, 1, ⟨1, 0⟩), (0, 1, ⟨1, 1⟩)],
        [(2, 1), (1, 0)]⟩ fl = none := by
    intro fuel
    induction fuel with
    | zero => intro fl; rfl
    | succ fuel ih =>
      intro fl
      have hstep : maxFlowLoop 0 1 (fuel + 1)
          ⟨[⟨1, 0, 0, 0⟩, ⟨2, 0, 0, 0⟩],
            [(0, 1, ⟨1, 0⟩), (0, 1, ⟨1, 1⟩)],
            [(2, 1), (1, 0)]⟩ fl =
          maxFlowLoop 0 1 fuel
          ⟨[⟨1, 0, 0, 0⟩, ⟨2, 0, 0, 0⟩],
            [(0, 1, ⟨1, 0⟩), (0, 1, ⟨1, 1⟩)],
            [(2, 1), (1, 0)]⟩ (fl + 0) := by
        rw [maxFlowLoop.eq_def]
        simp [hfp2, hmc2, haug2]
      rw [hstep, add_zero]
      exact ih fl
  refine ⟨?_, hfp2, hmc2⟩
  rintro ⟨fuel, hfuel⟩
  cases fuel with
  | zero => exact absurd hfuel (by decide)
  | succ fuel =>
    have hstep1 : (⟨[⟨1, 0, 0, 0⟩, ⟨2, 0, 0, 0⟩],
        [(0, 1, ⟨1, 0⟩), (0, 1, ⟨1, 0⟩)],
        [(2, 1), (1, 0)]⟩ : Grf).max_flow 1 2 (fuel + 1) =
        maxFlowLoop 0 1 fuel
        ⟨[⟨1, 0, 0, 0⟩, ⟨2, 0, 0, 0⟩],
          [(0, 1, ⟨1, 0⟩), (0, 1, ⟨1, 1⟩)],
          [(2, 1), (1, 0)]⟩ (0 + 1) := by
      show maxFlowLoop 0 1 (fuel + 1)
          ⟨[⟨1, 0, 0, 0⟩, ⟨2, 0, 0, 0⟩],
            [(0, 1, ⟨1, 0⟩), (0, 1, ⟨1, 0⟩)],
            [(2, 1), (1, 0)]⟩ 0 = _
      rw [maxFlowLoop.eq_def]
      have h1 : (⟨[⟨1, 0, 0, 0⟩, ⟨2, 0, 0, 0⟩],
          [(0, 1, ⟨1, 0⟩), (0, 1, ⟨1, 0⟩)],
          [(2, 1), (1, 0)]⟩ : Grf).find_path 0 1 = [0, 1] := by decide
      have h2 : (⟨[⟨1, 0, 0, 0⟩, ⟨2, 0, 0, 0⟩],
          [(0, 1, ⟨1, 0⟩), (0, 1, ⟨1, 0⟩)],
          [(2, 1), (1, 0)]⟩ : Grf).min_cap [0, 1] = some 1 := by decide
      have h3 : (⟨[⟨1, 0, 0, 0⟩, ⟨2, 0, 0, 0⟩],
          [(0, 1, ⟨1, 0⟩), (0, 1, ⟨1, 0⟩)],
          [(2, 1), (1, 0)]⟩ : Grf).augment 1 [0, 1] =
          some ⟨[⟨1, 0, 0, 0⟩, ⟨2, 0, 0, 0⟩],
            [(0, 1, ⟨1, 0⟩), (0, 1, ⟨1, 1⟩)],
            [(2, 1), (1, 0)]⟩ := by decide
      simp [h1, h2, h3]
    rw [hstep1, key fuel (0 + 1)] at hfuel
    exact absurd hfuel (by decide)

/-! ## The concrete max-flow scenario of the specification -/

theorem resStep_cases {nds : List Nd} {idx : List (Nat × Nat)}
    {f01 f02 f13 f23 : ℚ} {u v : Nat}
    (h : ResStep ⟨nds, [(0, 1, ⟨3, f01⟩), (0, 2, ⟨2, f02⟩),
      (1, 3, ⟨2, f13⟩), (2, 3, ⟨3, f23⟩)], idx⟩ u v) :
    (u = 0 ∧ v = 1 ∧ f01 < 3) ∨ (u = 0 ∧ v = 2 ∧ f02 < 2) ∨
    (u = 1 ∧ v = 3 ∧ f13 < 2) ∨ (u = 2 ∧ v = 3 ∧ f23 < 3) := by
  obtain ⟨e, he, hsrc, htgt, hres⟩ := h
  simp only [List.mem_cons, List.not_mem_nil, or_false] at he
  rcases he with rfl | rfl | rfl | rfl
  · exact Or.inl ⟨hsrc.symm, htgt.symm, hres⟩
  · exact Or.inr (Or.inl ⟨hsrc.symm, htgt.symm, hres⟩)
  · exact Or.inr (Or.inr (Or.inl ⟨hsrc.symm, htgt.symm, hres⟩))
  · exact Or.inr (Or.inr (Or.inr ⟨hsrc.symm, htgt.symm, hres⟩))

theorem aug_path_cases {nds : List Nd} {idx : List (Nat × Nat)}
    {f01 f02 f13 f23 : ℚ} {p : List Nat}
    (h : IsAugPath ⟨nds, [(0, 1, ⟨3, f01⟩), (0, 2, ⟨2, f02⟩),
      (1, 3, ⟨2, f13⟩), (2, 3, ⟨3, f23⟩)], idx⟩ 0 3 p) :
    (p = [0, 1, 3] ∧ f01 < 3 ∧ f13 < 2) ∨
    (p = [0, 2, 3] ∧ f02 < 2 ∧ f23 < 3) := by
  obtain ⟨mid, hp, hchain⟩ := h
  subst hp
  match mid with
  | [] =>
    exfalso
    have h1 := (List.chain'_cons.1 hchain).1
    rcases resStep_cases h1 with ⟨_, hv, _⟩ | ⟨_, hv, _⟩ | ⟨hu, _, _⟩ |
      ⟨hu, _, _⟩ <;> omega
  | [m] =>
    have h1 := (List.chain'_cons.1 hchain).1
    have h2 := (List.chain'_cons.1 (List.chain'_cons.1 hchain).2).1
    rcases resStep_cases h1 with ⟨_, hv1, hf1⟩ | ⟨_, hv1, hf1⟩ |
      ⟨hu1, _, _⟩ | ⟨hu1, _, _⟩
    · subst hv1
      rcases resStep_cases h2 with ⟨hu2, _, _⟩ | ⟨hu2, _, _⟩ |
        ⟨_, _, hf2⟩ | ⟨hu2, _, _⟩ <;> first
        | omega
        | exact Or.inl ⟨rfl, hf1, hf2⟩
    · subst hv1
      rcases resStep_cases h2 with ⟨hu2, _, _⟩ | ⟨hu2, _, _⟩ |
        ⟨hu2, _, _⟩ | ⟨_, _, hf2⟩ <;> first
        | omega
        | exact Or.inr ⟨rfl, hf1, hf2⟩
    · omega
    · omega
  | m1 :: m2 :: rest =>
    exfalso
    have h1 := (List.chain'_cons.1 hchain).1
    have hc2 := (List.chain'_cons.1 hchain).2
    have h2 := (List.chain'_cons.1 hc2).1
    have hc3 := (List.chain'_cons.1 hc2).2
    have hm2 : m2 = 3 := by
      rcases resStep_cases h1 with ⟨_, hv1, _⟩ | ⟨_, hv1, _⟩ |
        ⟨hu1, _, _⟩ | ⟨hu1, _, _⟩
      · subst hv1
        rcases resStep_cases h2 with ⟨hu2, _, _⟩ | ⟨hu2, _, _⟩ |
          ⟨_, hv2, _⟩ | ⟨hu2, _, _⟩ <;> omega
      · subst hv1
        rcases resStep_cases h2 with ⟨hu2, _, _⟩ | ⟨hu2, _, _⟩ |
          ⟨hu2, _, _⟩ | ⟨_, hv2, _⟩ <;> omega
      · omega
      · omega
    subst hm2
    have h3 : ∃ z, ResStep ⟨nds, [(0, 1, ⟨3, f01⟩), (0, 2, ⟨2, f02⟩),
        (1, 3, ⟨2, f13⟩), (2, 3, ⟨3, f23⟩)], idx⟩ 3 z := by
      cases rest with
      | nil => exact ⟨3, (List.chain'_cons.1 hc3).1⟩
      | cons r rest2 => exact ⟨r, (List.chain'_cons.1 hc3).1⟩
    obtain ⟨z, hz⟩ := h3
    rcases resStep_cases hz with ⟨hu, _, _⟩ | ⟨hu, _, _⟩ |
      ⟨hu, _, _⟩ | ⟨hu, _, _⟩ <;> omega

/-- C1: on the graph built by inserting nodes 1–4 (any values and
positions) and edges `(1→2, 3)`, `(1→3, 2)`, `(2→4, 2)`, `(3→4, 3)`,
`compute_max_flow(1, 4)` returns exactly `4.0`; moreover the answer does
not depend on the order in which the BFS discovers augmenting paths: any
conforming path search (`AugChoice`) drives the augmentation loop to
total `4`. -/
theorem max_flow_scenario (v1 x1 y1 v2 x2 y2 v3 x3 y3 v4 x4 y4 : ℚ)
    (nds : List Nd) (pf : Grf → List Nat)
    (h0 : AugChoice 0 3 pf (scnGrf nds 0 0 0 0))
    (hA : AugChoice 0 3 pf (scnGrf nds 2 0 2 0))
    (hB : AugChoice 0 3 pf (scnGrf nds 0 2 0 2))
    (hAB : AugChoice 0 3 pf (scnGrf nds 2 2 2 2)) :
    (((((((((Grf.new.add_nd 1 v1 x1 y1).1.add_nd 2 v2 x2 y2).1.add_nd 3
        v3 x3 y3).1.add_nd 4 v4 x4 y4).1.add_ed 1 2 3).bind
        (fun g => g.add_ed 1 3 2)).bind (fun g => g.add_ed 2 4 2)).bind
        (fun g => g.add_ed 3 4 3)) =
      some (scnGrf [⟨1, v1, x1, y1⟩, ⟨2, v2, x2, y2⟩, ⟨3, v3, x3, y3⟩,
        ⟨4, v4, x4, y4⟩] 0 0 0 0)) ∧
    ((scnGrf nds 0 0 0 0).max_flow 1 4 5 =
      some (scnGrf nds 2 2 2 2, 4)) ∧
    maxFlowWith pf 3 (scnGrf nds 0 0 0 0) 0 =
      some (scnGrf nds 2 2 2 2, 4) := by
  have hmcB0 : (scnGrf nds 0 0 0 0).min_cap [0, 2, 3] = some 2 := by
    show (scnGrf [] 0 0 0 0).min_cap [0, 2, 3] = some 2
    decide
  have haugB0 : (scnGrf nds 0 0 0 0).augment 2 [0, 2, 3] =
      some (scnGrf nds 0 2 0 2) := rfl
  have hmcA0 : (scnGrf nds 0 0 0 0).min_cap [0, 1, 3] = some 2 := by
    show (scnGrf [] 0 0 0 0).min_cap [0, 1, 3] = some 2
    decide
  have haugA0 : (scnGrf nds 0 0 0 0).augment 2 [0, 1, 3] =
      some (scnGrf nds 2 0 2 0) := rfl
  have hmcB_A : (scnGrf nds 2 0 2 0).min_cap [0, 2, 3] = some 2 := by
    show (scnGrf [] 2 0 2 0).min_cap [0, 2, 3] = some 2
    decide
  have haugB_A : (scnGrf nds 2 0 2 0).augment 2 [0, 2, 3] =
      some (scnGrf nds 2 2 2 2) := rfl
  have hmcA_B : (scnGrf nds 0 2 0 2).min_cap [0, 1, 3] = some 2 := by
    show (scnGrf [] 0 2 0 2).min_cap [0, 1, 3] = some 2
    decide
  have haugA_B : (scnGrf nds 0 2 0 2).augment 2 [0, 1, 3] =
      some (scnGrf nds 2 2 2 2) := rfl
  have hfp0 : (scnGrf nds 0 0 0 0).find_path 0 3 = [0, 2, 3] := by
    show (scnGrf [] 0 0 0 0).find_path 0 3 = [0, 2, 3]
    decide
  have hfpB : (scnGrf nds 0 2 0 2).find_path 0 3 = [0, 1, 3] := by
    show (scnGrf [] 0 2 0 2).find_path 0 3 = [0, 1, 3]
    decide
  have hfpAB : (scnGrf nds 2 2 2 2).find_path 0 3 = [] := by
    show (scnGrf [] 2 2 2 2).find_path 0 3 = []
    decide
  refine ⟨rfl, ?_, ?_⟩
  · show maxFlowLoop 0 3 5 (scnGrf nds 0 0 0 0) 0 =
      some (scnGrf nds 2 2 2 2, 4)
    have hd1 : maxFlowLoop 0 3 5 (scnGrf nds 0 0 0 0) 0 =
        maxFlowLoop 0 3 4 (scnGrf nds 0 2 0 2) (0 + 2) := by
      rw [maxFlowLoop.eq_def]
      simp [hfp0, hmcB0, haugB0]
    have hd2 : maxFlowLoop 0 3 4 (scnGrf nds 0 2 0 2) (0 + 2) =
        maxFlowLoop 0 3 3 (scnGrf nds 2 2 2 2) (0 + 2 + 2) := by
      rw [maxFlowLoop.eq_def]
      simp [hfpB, hmcA_B, haugA_B]
    have hd3 : maxFlowLoop 0 3 3 (scnGrf nds 2 2 2 2) (0 + 2 + 2) =
        some (scnGrf nds 2 2 2 2, 0 + 2 + 2) := by
      rw [maxFlowLoop.eq_def]
      simp [hfpAB]
    rw [hd1, hd2, hd3]
    norm_num
  · have hexA0 : IsAugPath (scnGrf nds 0 0 0 0) 0 3 [0, 1, 3] := by
      refine ⟨[1], rfl, ?_⟩
      refine List.chain'_cons.2 ⟨⟨(0, 1, ⟨3, 0⟩), by simp [scnGrf, scnEds],
        rfl, rfl, by norm_num⟩, ?_⟩
      refine List.chain'_cons.2 ⟨⟨(1, 3, ⟨2, 0⟩), by simp [scnGrf, scnEds],
        rfl, rfl, by norm_num⟩, ?_⟩
      simp
    have hexB_A : IsAugPath (scnGrf nds 2 0 2 0) 0 3 [0, 2, 3] := by
      refine ⟨[2], rfl, ?_⟩
      refine List.chain'_cons.2 ⟨⟨(0, 2, ⟨2, 0⟩), by simp [scnGrf, scnEds],
        rfl, rfl, by norm_num⟩, ?_⟩
      refine List.chain'_cons.2 ⟨⟨(2, 3, ⟨3, 0⟩), by simp [scnGrf, scnEds],
        rfl, rfl, by norm_num⟩, ?_⟩
      simp
    have hexA_B : IsAugPath (scnGrf nds 0 2 0 2) 0 3 [0, 1, 3] := by
      refine ⟨[1], rfl, ?_⟩
      refine List.chain'_cons.2 ⟨⟨(0, 1, ⟨3, 0⟩), by simp [scnGrf, scnEds],
        rfl, rfl, by norm_num⟩, ?_⟩
      refine List.chain'_cons.2 ⟨⟨(1, 3, ⟨2, 0⟩), by simp [scnGrf, scnEds],
        rfl, rfl, by norm_num⟩, ?_⟩
      simp
    have hnoAB : ∀ p, ¬ IsAugPath (scnGrf nds 2 2 2 2) 0 3 p := by
      intro p hp
      rcases aug_path_cases hp with ⟨_, _, hf⟩ | ⟨_, hf, _⟩ <;>
        exact absurd hf (by norm_num)
    have hpfAB : pf (scnGrf nds 2 2 2 2) = [] := by
      by_contra hne
      exact hnoAB _ (hAB.2 hne)
    have hfinal : ∀ fl : ℚ, maxFlowWith pf 1 (scnGrf nds 2 2 2 2) fl =
        some (scnGrf nds 2 2 2 2, fl) := by
      intro fl
      rw [maxFlowWith.eq_def]
      simp [hpfAB]
    have hne0 : pf (scnGrf nds 0 0 0 0) ≠ [] :=
      fun hpf => (h0.1 hpf) _ hexA0
    rcases aug_path_cases (h0.2 hne0) with ⟨hpA, _, _⟩ | ⟨hpB, _, _⟩
    · have hstep1 : maxFlowWith pf 3 (scnGrf nds 0 0 0 0) 0 =
          maxFlowWith pf 2 (scnGrf nds 2 0 2 0) (0 + 2) := by
        rw [maxFlowWith.eq_def]
        simp [hpA, hmcA0, haugA0]
      have hneA : pf (scnGrf nds 2 0 2 0) ≠ [] :=
        fun hpf => (hA.1 hpf) _ hexB_A
      rcases aug_path_cases (hA.2 hneA) with ⟨_, _, hf⟩ | ⟨hpB2, _, _⟩
      · exact absurd hf (by norm_num)
      have hstep2 : maxFlowWith pf 2 (scnGrf nds 2 0 2 0) (0 + 2) =
          maxFlowWith pf 1 (scnGrf nds 2 2 2 2) (0 + 2 + 2) := by
        rw [maxFlowWith.eq_def]
        simp [hpB2, hmcB_A, haugB_A]
      rw [hstep1, hstep2, hfinal]
      norm_num
    · have hstep1 : maxFlowWith pf 3 (scnGrf nds 0 0 0 0) 0 =
          maxFlowWith pf 2 (scnGrf nds 0 2 0 2) (0 + 2) := by
        rw [maxFlowWith.eq_def]
        simp [hpB, hmcB0, haugB0]
      have hneB : pf (scnGrf nds 0 2 0 2) ≠ [] :=
        fun hpf => (hB.1 hpf) _ hexA_B
      rcases aug_path_cases (hB.2 hneB) with ⟨hpA2, _, _⟩ | ⟨_, hf, _⟩
      · have hstep2 : maxFlowWith pf 2 (scnGrf nds 0 2 0 2) (0 + 2) =
            maxFlowWith pf 1 (scnGrf nds 2 2 2 2) (0 + 2 + 2) := by
          rw [maxFlowWith.eq_def]
          simp [hpA2, hmcA_B, haugA_B]
        rw [hstep1, hstep2, hfinal]
        norm_num
      · exact absurd hf (by norm_num)

/-- C1 witness: the scenario theorem applied at zero payloads with the
code's own BFS as the conforming path search: both the deterministic
`max_flow` and the order-abstracted loop return total `4`. -/
theorem max_flow_scenario_witness :
    (scnGrf [⟨1, 0, 0, 0⟩, ⟨2, 0, 0, 0⟩, ⟨3, 0, 0, 0⟩, ⟨4, 0, 0, 0⟩]
        0 0 0 0).max_flow 1 4 5 =
      some (scnGrf [⟨1, 0, 0, 0⟩, ⟨2, 0, 0, 0⟩, ⟨3, 0, 0, 0⟩, ⟨4, 0, 0, 0⟩]
        2 2 2 2, 4) ∧
    maxFlowWith (fun g => g.find_path 0 3) 3
        (scnGrf [⟨1, 0, 0, 0⟩, ⟨2, 0, 0, 0⟩, ⟨3, 0, 0, 0⟩, ⟨4, 0, 0, 0⟩]
          0 0 0 0) 0 =
      some (scnGrf [⟨1, 0, 0, 0⟩, ⟨2, 0, 0, 0⟩, ⟨3, 0, 0, 0⟩, ⟨4, 0, 0, 0⟩]
        2 2 2 2, 4) := by
  have c0 : AugChoice 0 3 (fun g => g.find_path 0 3)
      (scnGrf [⟨1, 0, 0, 0⟩, ⟨2, 0, 0, 0⟩, ⟨3, 0, 0, 0⟩, ⟨4, 0, 0, 0⟩]
        0 0 0 0) := by
    constructor
    · intro hpf
      exact absurd hpf (by decide)
    · intro _
      show IsAugPath _ 0 3 ((scnGrf _ 0 0 0 0).find_path 0 3)
      rw [show (scnGrf [⟨1, 0, 0, 0⟩, ⟨2, 0, 0, 0⟩, ⟨3, 0, 0, 0⟩,
          ⟨4, 0, 0, 0⟩] 0 0 0 0).find_path 0 3 = [0, 2, 3] from by decide]
      refine ⟨[2], rfl, ?_⟩
      refine List.chain'_cons.2 ⟨⟨(0, 2, ⟨2, 0⟩), by simp [scnGrf, scnEds],
        rfl, rfl, by norm_num⟩, ?_⟩
      refine List.chain'_cons.2 ⟨⟨(2, 3, ⟨3, 0⟩), by simp [scnGrf, scnEds],
        rfl, rfl, by norm_num⟩, ?_⟩
      simp
  have cA : AugChoice 0 3 (fun g => g.find_path 0 3)
      (scnGrf [⟨1, 0, 0, 0⟩, ⟨2, 0, 0, 0⟩, ⟨3, 0, 0, 0⟩, ⟨4, 0, 0, 0⟩]
        2 0 2 0) := by
    constructor
    · intro hpf
      exact absurd hpf (by decide)
    · intro _
      show IsAugPath _ 0 3 ((scnGrf _ 2 0 2 0).find_path 0 3)
      rw [show (scnGrf [⟨1, 0, 0, 0⟩, ⟨2, 0, 0, 0⟩, ⟨3, 0, 0, 0⟩,
          ⟨4, 0, 0, 0⟩] 2 0 2 0).find_path 0 3 = [0, 2, 3] from by decide]
      refine ⟨[2], rfl, ?_⟩
      refine List.chain'_cons.2 ⟨⟨(0, 2, ⟨2, 0⟩), by simp [scnGrf, scnEds],
        rfl, rfl, by norm_num⟩, ?_⟩
      refine List.chain'_cons.2 ⟨⟨(2, 3, ⟨3, 0⟩), by simp [scnGrf, scnEds],
        rfl, rfl, by norm_num⟩, ?_⟩
      simp
  have cB : AugChoice 0 3 (fun g => g.find_path 0 3)
      (scnGrf [⟨1, 0, 0, 0⟩, ⟨2, 0, 0, 0⟩, ⟨3, 0, 0, 0⟩, ⟨4, 0, 0, 0⟩]
        0 2 0 2) := by
    constructor
    · intro hpf
      exact absurd hpf (by decide)
    · intro _
      show IsAugPath _ 0 3 ((scnGrf _ 0 2 0 2).find_path 0 3)
      rw [show (scnGrf [⟨1, 0, 0, 0⟩, ⟨2, 0, 0, 0⟩, ⟨3, 0, 0, 0⟩,
          ⟨4, 0, 0, 0⟩] 0 2 0 2).find_path 0 3 = [0, 1, 3] from by decide]
      refine ⟨[1], rfl, ?_⟩
      refine List.chain'_cons.2 ⟨⟨(0, 1, ⟨3, 0⟩), by simp [scnGrf, scnEds],
        rfl, rfl, by norm_num⟩, ?_⟩
      refine List.chain'_cons.2 ⟨⟨(1, 3, ⟨2, 0⟩), by simp [scnGrf, scnEds],
        rfl, rfl, by norm_num⟩, ?_⟩
      simp
  have cAB : AugChoice 0 3 (fun g => g.find_path 0 3)
      (scnGrf [⟨1, 0, 0, 0⟩, ⟨2, 0, 0, 0⟩, ⟨3, 0, 0, 0⟩, ⟨4, 0, 0, 0⟩]
        2 2 2 2) := by
    constructor
    · intro _ p hp
      rcases aug_path_cases hp with ⟨_, _, hf⟩ | ⟨_, hf, _⟩ <;>
        exact absurd hf (by norm_num)
    · intro hne
      exact absurd (by decide) hne
  have h := max_flow_scenario 0 0 0 0 0 0 0 0 0 0 0 0
    [⟨1, 0, 0, 0⟩, ⟨2, 0, 0, 0⟩, ⟨3, 0, 0, 0⟩, ⟨4, 0, 0, 0⟩]
    (fun g => g.find_path 0 3) c0 cA cB cAB
  exact ⟨h.2.1, h.2.2⟩

theorem popMax_eq_none : ∀ {heap : List HpEdge}, popMax heap = none → heap = []
  | [], _ => rfl
  | a :: as, h => by
    exfalso
    simp only [popMax] at h
    cases hm : popMax as with
    | none => rw [hm] at h; simp at h
    | some p =>
      obtain ⟨m, rest⟩ := p
      rw [hm] at h
      by_cases hlt : a.wt < m.wt <;> simp [hlt] at h

theorem popMax_perm : ∀ {heap : List HpEdge} {e : HpEdge} {rest : List HpEdge},
    popMax heap = some (e, rest) → heap.Perm (e :: rest) := by
  intro heap
  induction heap with
  | nil => intro e rest h; simp [popMax] at h
  | cons a as ih =>
    intro e rest h
    simp only [popMax] at h
    cases hm : popMax as with
    | none =>
      rw [hm] at h
      simp only [Option.some.injEq, Prod.mk.injEq] at h
      obtain ⟨he, hr⟩ := h
      subst he; subst hr
      rw [popMax_eq_none hm]
    | some p =>
      obtain ⟨m, rest'⟩ := p
      rw [hm] at h
      by_cases hlt : a.wt < m.wt
      · simp only [if_pos hlt, Option.some.injEq, Prod.mk.injEq] at h
        obtain ⟨he, hr⟩ := h
        subst he; subst hr
        exact ((ih hm).cons a).trans (List.Perm.swap _ a rest')
      · simp only [if_neg hlt, Option.some.injEq, Prod.mk.injEq] at h
        obtain ⟨he, hr⟩ := h
        subst he; subst hr
        exact List.Perm.refl _

theorem enumFrom_filter_length {α : Type} (p : α → Bool) :
    ∀ (n : Nat) (l : List α),
      ((List.enumFrom n l).filter (fun e => p e.2)).length = (l.filter p).length := by
  intro n l
  induction l generalizing n with
  | nil => rfl
  | cons a l ih =>
    simp only [List.enumFrom, List.filter_cons]
    cases hp : p a <;> simp [hp, ih (n + 1)]

theorem outEdges_length (g : Grf) (u : Nat) :
    (g.outEdges u).length = (g.eds.filter (fun x => x.1 == u)).length := by
  unfold Grf.outEdges
  rw [List.length_reverse]
  exact enumFrom_filter_length (fun x => x.1 == u) 0 g.eds

theorem hpEntries_length (g : Grf) (u : Nat) :
    (hpEntries g u).length = (g.eds.filter (fun x => x.1 == u)).length := by
  unfold hpEntries
  rw [List.length_map]
  exact outEdges_length g u

theorem mem_hpEntries {g : Grf} {u : Nat} {e : HpEdge} (he : e ∈ hpEntries g u) :
    e.u = u ∧ ∃ x ∈ g.eds, x.1 = e.u ∧ x.2.1 = e.v := by
  unfold hpEntries at he
  rw [List.mem_map] at he
  obtain ⟨x, hx, hxe⟩ := he
  obtain ⟨hget, hsrc⟩ := mem_outEdges hx
  have hmem : x.2 ∈ g.eds := by
    rw [List.mem_iff_get?]; exact ⟨x.1, hget⟩
  subst hxe
  exact ⟨rfl, x.2, hmem, hsrc, rfl⟩

theorem hpEntries_cover {g : Grf} {u : Nat} {x : Nat × Nat × Ed}
    (hx : x ∈ g.eds) (hsrc : x.1 = u) :
    (⟨u, x.2.1, -x.2.2.wt⟩ : HpEdge) ∈ hpEntries g u := by
  unfold hpEntries
  rw [List.mem_map]
  obtain ⟨i, hi⟩ := List.mem_iff_get?.1 hx
  exact ⟨(i, x), outEdges_mem hi hsrc, rfl⟩

theorem contains_append_single (seen : List Nat) (w a : Nat) :
    List.contains (seen ++ [w]) a = (List.contains seen a || a == w) := by
  simp only [List.contains, List.elem_eq_mem, List.mem_append, List.mem_singleton]
  by_cases h1 : a ∈ seen <;> by_cases h2 : a = w <;> simp [h1, h2]

theorem filter_split (seen : List Nat) (w : Nat) (hw : w ∉ seen)
    (l : List (Nat × Nat × Ed)) :
    (l.filter (fun x => !(List.contains (seen ++ [w]) x.1))).length
      + (l.filter (fun x => x.1 == w)).length
    = (l.filter (fun x => !(List.contains seen x.1))).length := by
  induction l with
  | nil => rfl
  | cons a l ih =>
    by_cases ha : a.1 = w
    · have hnm : a.1 ∉ seen := by rw [ha]; exact hw
      rw [List.filter_cons_of_neg (by simp [List.contains, ha]),
          List.filter_cons_of_pos (by simp [ha]),
          List.filter_cons_of_pos (by simp [List.contains, hnm])]
      simp only [List.length_cons]
      omega
    · by_cases hm : a.1 ∈ seen
      · rw [List.filter_cons_of_neg (by simp [List.contains, hm]),
            List.filter_cons_of_neg (by simp [ha]),
            List.filter_cons_of_neg (by simp [List.contains, hm])]
        exact ih
      · rw [List.filter_cons_of_pos (by simp [List.contains, hm, ha]),
            List.filter_cons_of_neg (by simp [ha]),
            List.filter_cons_of_pos (by simp [List.contains, hm])]
        simp only [List.length_cons]
        omega

theorem subset_stepSet (g : Grf) (S : Finset Nat) : S ⊆ stepSet g S :=
  Finset.subset_union_left

theorem reachIter_le_succ (g : Grf) (n : Nat) :
    reachIter g n ⊆ reachIter g (n + 1) :=
  subset_stepSet g (reachIter g n)

theorem zero_mem_reachIter (g : Grf) : ∀ n, 0 ∈ reachIter g n
  | 0 => by simp [reachIter]
  | n + 1 => reachIter_le_succ g n (zero_mem_reachIter g n)

theorem zero_mem_reachSet (g : Grf) : 0 ∈ reachSet g :=
  zero_mem_reachIter g g.eds.length

theorem reachIter_bound (g : Grf) :
    ∀ n, reachIter g n ⊆ {0} ∪ (targetsL g).toFinset := by
  intro n
  induction n with
  | zero =>
    intro x hx
    simp only [reachIter, Finset.mem_singleton] at hx
    simp [hx]
  | succ n ih =>
    intro x hx
    simp only [reachIter, stepSet, Finset.mem_union] at hx
    rcases hx with hx | hx
    · exact ih hx
    · rw [List.mem_toFinset, List.mem_map] at hx
      obtain ⟨e, he, hxe⟩ := hx
      have hmem : e ∈ g.eds := List.mem_of_mem_filter he
      rw [Finset.mem_union, List.mem_toFinset]
      right
      rw [← hxe]
      exact List.mem_map_of_mem _ hmem

theorem reachIter_card_le (g : Grf) (n : Nat) :
    (reachIter g n).card ≤ g.eds.length + 1 := by
  calc (reachIter g n).card
      ≤ ({0} ∪ (targetsL g).toFinset : Finset Nat).card :=
        Finset.card_le_card (reachIter_bound g n)
    _ ≤ ({0} : Finset Nat).card + (targetsL g).toFinset.card :=
        Finset.card_union_le _ _
    _ ≤ 1 + (targetsL g).length := by
        have := List.toFinset_card_le (targetsL g)
        simp only [Finset.card_singleton]
        omega
    _ = g.eds.length + 1 := by
        unfold targetsL
        rw [List.length_map]
        omega

theorem reachIter_card_ge (g : Grf) :
    ∀ n, (∀ k, k < n → reachIter g k ≠ reachIter g (k + 1)) →
      n + 1 ≤ (reachIter g n).card := by
  intro n
  induction n with
  | zero =>
    intro _
    exact Finset.card_pos.2 ⟨0, zero_mem_reachIter g 0⟩
  | succ n ih =>
    intro h
    have h1 : n + 1 ≤ (reachIter g n).card :=
      ih (fun k hk => h k (Nat.lt_succ_of_lt hk))
    have h2 : (reachIter g n).card < (reachIter g (n + 1)).card :=
      Finset.card_lt_card
        (lt_of_le_of_ne (reachIter_le_succ g n) (h n (Nat.lt_succ_self n)))
    omega

theorem reachIter_stab (g : Grf) {k : Nat}
    (h : reachIter g (k + 1) = reachIter g k) :
    ∀ m, reachIter g (k + m) = reachIter g k := by
  intro m
  induction m with
  | zero => rfl
  | succ m ih =>
    have : reachIter g (k + (m + 1)) = stepSet g (reachIter g (k + m)) := rfl
    rw [this, ih]
    exact h

theorem reachSet_fixed (g : Grf) : stepSet g (reachSet g) = reachSet g := by
  have hex : ∃ k, k ≤ g.eds.length ∧ reachIter g (k + 1) = reachIter g k := by
    by_contra hno
    push_neg at hno
    have hall : ∀ k, k < g.eds.length + 1 → reachIter g k ≠ reachIter g (k + 1) := by
      intro k hk
      exact fun he => hno k (Nat.lt_succ_iff.1 hk) he.symm
    have := reachIter_card_ge g (g.eds.length + 1) hall
    have := reachIter_card_le g (g.eds.length + 1)
    omega
  obtain ⟨k, hk, hfix⟩ := hex
  have h1 : reachIter g (k + (g.eds.length - k)) = reachIter g k :=
    reachIter_stab g hfix (g.eds.length - k)
  have h2 : reachIter g (k + (g.eds.length + 1 - k)) = reachIter g k :=
    reachIter_stab g hfix (g.eds.length + 1 - k)
  have e1 : k + (g.eds.length - k) = g.eds.length := by omega
  have e2 : k + (g.eds.length + 1 - k) = g.eds.length + 1 := by omega
  rw [e1] at h1
  rw [e2] at h2
  show stepSet g (reachIter g g.eds.length) = reachSet g
  have : stepSet g (reachIter g g.eds.length) = reachIter g (g.eds.length + 1) := rfl
  rw [this, h2]
  unfold reachSet
  rw [h1]

theorem reach_step (g : Grf) {u v : Nat} (hu : u ∈ reachSet g)
    (he : ∃ x ∈ g.eds, x.1 = u ∧ x.2.1 = v) : v ∈ reachSet g := by
  rw [← reachSet_fixed g]
  obtain ⟨x, hx, hsrc, htgt⟩ := he
  unfold stepSet
  rw [Finset.mem_union, List.mem_toFinset, List.mem_map]
  right
  refine ⟨x, ?_, htgt⟩
  rw [List.mem_filter]
  exact ⟨hx, by simp [hsrc, hu]⟩

theorem reachSet_min (g : Grf) {S : Finset Nat} (h0 : 0 ∈ S)
    (hcl : ∀ x ∈ g.eds, x.1 ∈ S → x.2.1 ∈ S) : reachSet g ⊆ S := by
  have hall : ∀ n, reachIter g n ⊆ S := by
    intro n
    induction n with
    | zero =>
      intro x hx
      simp only [reachIter, Finset.mem_singleton] at hx
      rw [hx]; exact h0
    | succ n ih =>
      intro x hx
      simp only [reachIter, stepSet, Finset.mem_union] at hx
      rcases hx with hx | hx
      · exact ih hx
      · rw [List.mem_toFinset, List.mem_map] at hx
        obtain ⟨e, he, hxe⟩ := hx
        rw [List.mem_filter] at he
        obtain ⟨hmem, hsrc⟩ := he
        have : e.1 ∈ reachIter g n := by simpa using hsrc
        rw [← hxe]
        exact hcl e hmem (ih this)
  exact hall g.eds.length

theorem mstLoop_spec (g : Grf) (hwf : ∀ x ∈ g.eds, x.2.1 < g.nds.length) :
    ∀ fuel heap seen res, MstInv g heap seen res →
      mstPot g heap seen ≤ fuel →
      ∃ (res2 : List (Nat × Nat × ℚ)) (seen2 : List Nat),
        mstLoop g fuel heap seen res = some res2 ∧
        seen2.Nodup ∧
        (∀ v ∈ seen2, v ∈ reachSet g) ∧
        0 ∈ seen2 ∧
        (∀ x ∈ g.eds, x.1 ∈ seen2 → x.2.1 ∈ seen2) ∧
        res2.length + 1 = seen2.length := by
  intro fuel
  induction fuel with
  | zero =>
    intro heap seen res inv hpot
    have hlen : heap.length = 0 := by
      unfold mstPot at hpot; omega
    have hnil : heap = [] := List.length_eq_zero.1 hlen
    subst hnil
    refine ⟨res, seen, by simp [mstLoop], inv.seenNodup, inv.seenReach,
      inv.zeroSeen, ?_, inv.resLen⟩
    intro x hx hsx
    rcases inv.closure x hx hsx with h | ⟨e, he, _⟩
    · exact h
    · exact absurd he (List.not_mem_nil e)
  | succ fuel ih =>
    intro heap seen res inv hpot
    cases hp : popMax heap with
    | none =>
      have hnil := popMax_eq_none hp
      subst hnil
      refine ⟨res, seen, by simp [mstLoop, hp], inv.seenNodup, inv.seenReach,
        inv.zeroSeen, ?_, inv.resLen⟩
      intro x hx hsx
      rcases inv.closure x hx hsx with h | ⟨e, he, _⟩
      · exact h
      · exact absurd he (List.not_mem_nil e)
    | some pr =>
      obtain ⟨e, heap2⟩ := pr
      have hperm : heap.Perm (e :: heap2) := popMax_perm hp
      have hmem_heap : ∀ x ∈ heap2, x ∈ heap := fun x hx =>
        hperm.mem_iff.2 (List.mem_cons_of_mem e hx)
      have he_heap : e ∈ heap := hperm.mem_iff.2 (List.mem_cons_self e heap2)
      have hlen2 : heap.length = heap2.length + 1 := by
        have := hperm.length_eq; simpa using this
      by_cases hseen : e.v ∈ seen
      · have inv2 : MstInv g heap2 seen res :=
          { seenNodup := inv.seenNodup
            zeroSeen := inv.zeroSeen
            seenValid := inv.seenValid
            seenReach := inv.seenReach
            heapSrc := fun x hx => inv.heapSrc x (hmem_heap x hx)
            heapEdge := fun x hx => inv.heapEdge x (hmem_heap x hx)
            closure := by
              intro x hx hsx
              rcases inv.closure x hx hsx with h | ⟨f, hf, hu, hv⟩
              · exact Or.inl h
              · rcases List.mem_cons.1 (hperm.mem_iff.1 hf) with heq | hmem
                · subst heq
                  exact Or.inl (hv ▸ hseen)
                · exact Or.inr ⟨f, hmem, hu, hv⟩
            resLen := inv.resLen }
        have hpot2 : mstPot g heap2 seen ≤ fuel := by
          unfold mstPot at hpot ⊢
          omega
        obtain ⟨res2, seen2, hrun, hrest⟩ := ih heap2 seen res inv2 hpot2
        refine ⟨res2, seen2, ?_, hrest⟩
        simp only [mstLoop, hp, if_pos hseen]
        exact hrun
      · have hu_seen : e.u ∈ seen := inv.heapSrc e he_heap
        have hu_lt : e.u < g.nds.length := inv.seenValid e.u hu_seen
        obtain ⟨x0, hx0, hx0s, hx0t⟩ := inv.heapEdge e he_heap
        have hv_lt : e.v < g.nds.length := hx0t ▸ hwf x0 hx0
        have hgu : g.nds.get? e.u = some (g.nds.get ⟨e.u, hu_lt⟩) :=
          List.get?_eq_get hu_lt
        have hgv : g.nds.get? e.v = some (g.nds.get ⟨e.v, hv_lt⟩) :=
          List.get?_eq_get hv_lt
        have hvreach : e.v ∈ reachSet g :=
          reach_step g (inv.seenReach e.u hu_seen) ⟨x0, hx0, hx0s, hx0t⟩
        have inv2 : MstInv g
            (heap2 ++ (hpEntries g e.v).filter
              (fun x => !((seen ++ [e.v]).contains x.v)))
            (seen ++ [e.v])
            (res ++ [((g.nds.get ⟨e.u, hu_lt⟩).id,
                      (g.nds.get ⟨e.v, hv_lt⟩).id, -e.wt)]) :=
          { seenNodup := by
              rw [List.nodup_append]
              exact ⟨inv.seenNodup, List.nodup_singleton e.v, by simp [hseen]⟩
            zeroSeen := List.mem_append_left _ inv.zeroSeen
            seenValid := by
              intro v hv
              rcases List.mem_append.1 hv with h | h
              · exact inv.seenValid v h
              · rw [List.mem_singleton] at h
                rw [h]
                exact hv_lt
            seenReach := by
              intro v hv
              rcases List.mem_append.1 hv with h | h
              · exact inv.seenReach v h
              · rw [List.mem_singleton] at h
                rw [h]
                exact hvreach
            heapSrc := by
              intro x hx
              rcases List.mem_append.1 hx with h | h
              · exact List.mem_append_left _ (inv.heapSrc x (hmem_heap x h))
              · have hh := mem_hpEntries (List.mem_of_mem_filter h)
                rw [hh.1]
                exact List.mem_append_right _ (List.mem_singleton_self e.v)
            heapEdge := by
              intro x hx
              rcases List.mem_append.1 hx with h | h
              · exact inv.heapEdge x (hmem_heap x h)
              · exact (mem_hpEntries (List.mem_of_mem_filter h)).2
            closure := by
              intro x hx hsx
              rcases List.mem_append.1 hsx with hs | hs
              · rcases inv.closure x hx hs with h | ⟨f, hf, hu, hv⟩
                · exact Or.inl (List.mem_append_left _ h)
                · rcases List.mem_cons.1 (hperm.mem_iff.1 hf) with heq | hmem
                  · subst heq
                    rw [← hv]
                    exact Or.inl (List.mem_append_right _
                      (List.mem_singleton_self f.v))
                  · exact Or.inr ⟨f, List.mem_append_left _ hmem, hu, hv⟩
              · rw [List.mem_singleton] at hs
                by_cases ht : x.2.1 ∈ seen ++ [e.v]
                · exact Or.inl ht
                · refine Or.inr ⟨⟨e.v, x.2.1, -x.2.2.wt⟩,
                    List.mem_append_right _ ?_, hs.symm, rfl⟩
                  rw [List.mem_filter]
                  refine ⟨hpEntries_cover hx hs, ?_⟩
                  simp only [Bool.not_eq_true']
                  simp [List.contains, ht]
            resLen := by
              rw [List.length_append, List.length_append]
              simp only [List.length_singleton]
              have := inv.resLen
              omega }
        have hpush_le : ((hpEntries g e.v).filter
            (fun x => !((seen ++ [e.v]).contains x.v))).length
            ≤ (g.eds.filter (fun x => x.1 == e.v)).length := by
          calc ((hpEntries g e.v).filter
              (fun x => !((seen ++ [e.v]).contains x.v))).length
              ≤ (hpEntries g e.v).length := List.length_filter_le _ _
            _ = (g.eds.filter (fun x => x.1 == e.v)).length :=
              hpEntries_length g e.v
        have hsplit := filter_split seen e.v hseen g.eds
        have hpot2 : mstPot g
            (heap2 ++ (hpEntries g e.v).filter
              (fun x => !((seen ++ [e.v]).contains x.v)))
            (seen ++ [e.v]) ≤ fuel := by
          unfold mstPot at hpot ⊢
          rw [List.length_append]
          omega
        obtain ⟨res2, seen2, hrun, hrest⟩ := ih _ _ _ inv2 hpot2
        refine ⟨res2, seen2, ?_, hrest⟩
        simp only [mstLoop, hp, if_neg hseen, hgu, hgv]
        exact hrun

/-- C5: for every (well-formed: edge targets in range, as any graph built
through `add_nd`/`add_ed` is) graph, `mst` succeeds and returns exactly
N - 1 edges, where N is the number of nodes reachable from the start node
(arena index 0) via outgoing edges; a graph with zero nodes yields `[]`
(and so does a one-node graph, where N = 1). -/
theorem mst_count (g : Grf) (hwf : ∀ x ∈ g.eds, x.2.1 < g.nds.length) :
    (g.nds = [] → g.mst = some []) ∧
    (g.nds ≠ [] → ∃ res, g.mst = some res ∧
      res.length + 1 = (reachSet g).card) := by
  constructor
  · intro h
    unfold Grf.mst
    rw [h]
  · intro h
    have h0 : 0 < g.nds.length := by
      cases hg : g.nds with
      | nil => exact absurd hg h
      | cons a l => simp [hg]
    have inv0 : MstInv g (hpEntries g 0) [0] [] :=
      { seenNodup := List.nodup_singleton 0
        zeroSeen := List.mem_singleton_self 0
        seenValid := by
          intro v hv
          rw [List.mem_singleton] at hv
          rw [hv]
          exact h0
        seenReach := by
          intro v hv
          rw [List.mem_singleton] at hv
          rw [hv]
          exact zero_mem_reachSet g
        heapSrc := fun x hx => by
          rw [(mem_hpEntries hx).1]
          exact List.mem_singleton_self 0
        heapEdge := fun x hx => (mem_hpEntries hx).2
        closure := by
          intro x hx hsx
          rw [List.mem_singleton] at hsx
          exact Or.inr ⟨⟨0, x.2.1, -x.2.2.wt⟩, hpEntries_cover hx hsx,
            hsx.symm, rfl⟩
        resLen := rfl }
    have hfe : (g.eds.filter (fun x => !(List.contains ([] : List Nat) x.1)))
        = g.eds := by
      simp [List.contains]
    have hsplit := filter_split ([] : List Nat) 0 (List.not_mem_nil 0) g.eds
    rw [List.nil_append, hfe] at hsplit
    have hpot0 : mstPot g (hpEntries g 0) [0] ≤ g.eds.length + 1 := by
      unfold mstPot
      rw [hpEntries_length g 0]
      omega
    obtain ⟨res2, seen2, hrun, hnodup, hreach, h0s, hcl, hlen⟩ :=
      mstLoop_spec g hwf (g.eds.length + 1) (hpEntries g 0) [0] [] inv0 hpot0
    refine ⟨res2, ?_, ?_⟩
    · unfold Grf.mst
      cases hg : g.nds with
      | nil => exact absurd hg h
      | cons a l => exact hrun
    · have heq : seen2.toFinset = reachSet g := by
        apply Finset.Subset.antisymm
        · intro v hv
          rw [List.mem_toFinset] at hv
          exact hreach v hv
        · refine reachSet_min g ?_ ?_
          · rw [List.mem_toFinset]
            exact h0s
          · intro x hx hsx
            rw [List.mem_toFinset] at hsx ⊢
            exact hcl x hx hsx
      rw [← heq, List.toFinset_card_of_nodup hnodup]
      exact hlen

/-- Witness for C5: a three-node graph whose third node is unreachable;
`mst` returns one edge and the reachable count is two. -/
theorem mst_count_witness :
    ∃ res, (Grf.mk [⟨1, 0, 0, 0⟩, ⟨2, 0, 0, 0⟩, ⟨3, 0, 0, 0⟩]
        [(0, 1, ⟨5, 0⟩), (2, 1, ⟨7, 0⟩)] [(3, 2), (2, 1), (1, 0)]).mst
        = some res ∧
      res.length + 1 = (reachSet (Grf.mk [⟨1, 0, 0, 0⟩, ⟨2, 0, 0, 0⟩, ⟨3, 0, 0, 0⟩]
        [(0, 1, ⟨5, 0⟩), (2, 1, ⟨7, 0⟩)] [(3, 2), (2, 1), (1, 0)])).card :=
  (mst_count _ (by decide)).2 (by decide)

theorem bfsScan_covers (u : Nat) :
    ∀ (es : List (Nat × Nat × Nat × Ed)) (q seen : List Nat)
      (prev : List (Nat × Nat)) (x : Nat × Nat × Nat × Ed),
      x ∈ es → x.2.2.2.flow < x.2.2.2.wt →
      x.2.2.1 ∈ (bfsScan u es q seen prev).2.1 := by
  intro es
  induction es with
  | nil =>
    intro q seen prev x hx _
    exact absurd hx (List.not_mem_nil x)
  | cons y es ih =>
    intro q seen prev x hx hres
    obtain ⟨i, src, v, ed⟩ := y
    rcases List.mem_cons.1 hx with rfl | hx
    · by_cases hc : v ∉ seen ∧ ed.flow < ed.wt
      · rw [bfsScan, if_pos hc]
        obtain ⟨fresh, _, hs, _⟩ :=
          bfsScan_shape u es (q ++ [v]) (seen ++ [v]) ((v, u) :: prev)
        rw [hs]
        exact List.mem_append_left _
          (List.mem_append_right _ (List.mem_singleton_self v))
      · rw [bfsScan, if_neg hc]
        push_neg at hc
        have hv : v ∈ seen := by
          by_contra hvn
          exact absurd hres (not_lt.2 (hc hvn))
        obtain ⟨fresh, _, hs, _⟩ := bfsScan_shape u es q seen prev
        rw [hs]
        exact List.mem_append_left _ hv
    · by_cases hc : v ∉ seen ∧ ed.flow < ed.wt
      · rw [bfsScan, if_pos hc]
        exact ih _ _ _ x hx hres
      · rw [bfsScan, if_neg hc]
        exact ih _ _ _ x hx hres

theorem bfsClos_scan {g : Grf} {s u : Nat} {qs seen : List Nat}
    {prev : List (Nat × Nat)} (hinv : BfsClos g s (u :: qs) seen) :
    BfsClos g s (bfsScan u (g.outEdges u) qs seen prev).1
      (bfsScan u (g.outEdges u) qs seen prev).2.1 := by
  have hu : u ∈ seen := hinv.qSeen u (List.mem_cons_self u qs)
  obtain ⟨fresh, hq, hs, hnd, hns, hw, hpn, hpo, hpl⟩ :=
    bfsScan_shape u (g.outEdges u) qs seen prev
  have hfreshE : ∀ v ∈ fresh, ResStep g u v := by
    intro v hv
    obtain ⟨x, hx, hxt, hxr⟩ := hw v hv
    obtain ⟨hget, hsrc⟩ := mem_outEdges hx
    exact ⟨x.2, List.get?_mem hget, hsrc, hxt, hxr⟩
  rw [hq, hs]
  constructor
  · exact List.mem_append_left _ hinv.sSeen
  · intro v hv
    rcases List.mem_append.1 hv with hv | hv
    · exact List.mem_append_left _ (hinv.qSeen v (List.mem_cons_of_mem _ hv))
    · exact List.mem_append_right _ hv
  · intro v hv
    rcases List.mem_append.1 hv with hv | hv
    · exact hinv.seenReach v hv
    · exact (hinv.seenReach u hu).tail (hfreshE v hv)
  · intro v hv hvq w hw2
    rcases List.mem_append.1 hv with hv | hv
    · by_cases hvu : v = u
      · subst hvu
        obtain ⟨e, he, hesrc, hetgt, heres⟩ := hw2
        obtain ⟨i, hi⟩ := List.mem_iff_get?.1 he
        have hxmem : (i, e) ∈ g.outEdges v := outEdges_mem hi hesrc
        have hcov := bfsScan_covers v (g.outEdges v) qs seen prev (i, e)
          hxmem heres
        rw [hs] at hcov
        exact hetgt ▸ hcov
      · have hvq2 : v ∉ u :: qs := by
          intro hvc
          rcases List.mem_cons.1 hvc with h | h
          · exact hvu h
          · exact hvq (List.mem_append_left _ h)
        exact List.mem_append_left _ (hinv.scanned v hv hvq2 w hw2)
    · exact absurd (List.mem_append_right qs hv) hvq

theorem bfsClos_init (g : Grf) (s : Nat) : BfsClos g s [s] [s] := by
  refine ⟨List.mem_singleton_self s, fun v hv => hv, ?_, ?_⟩
  · intro v hv
    rw [List.mem_singleton] at hv
    subst hv
    exact Relation.ReflTransGen.refl
  · intro v hv hvq
    exact absurd hv hvq

theorem bfsClos_loop {g : Grf} {s : Nat} :
    ∀ (fuel : Nat) (q seen : List Nat) (prev : List (Nat × Nat)),
      BfsClos g s q seen →
      ∀ {prevF seenF : _}, bfsLoop g fuel q seen prev = some (prevF, seenF) →
      s ∈ seenF ∧ (∀ v ∈ seenF, Relation.ReflTransGen (ResStep g) s v) ∧
      (∀ v ∈ seenF, ∀ w, ResStep g v w → w ∈ seenF) := by
  intro fuel
  induction fuel with
  | zero =>
    intro q seen prev hinv prevF seenF h
    rw [bfsLoop] at h
    split at h
    · next hq =>
      subst hq
      obtain ⟨h1, h2⟩ := Prod.mk.injEq .. ▸ Option.some.inj h
      subst h1; subst h2
      exact ⟨hinv.sSeen, hinv.seenReach,
        fun v hv w hw => hinv.scanned v hv (List.not_mem_nil v) w hw⟩
    · exact absurd h (by simp)
  | succ fuel ih =>
    intro q seen prev hinv prevF seenF h
    match q, hinv with
    | [], hinv =>
      rw [bfsLoop] at h
      obtain ⟨h1, h2⟩ := Prod.mk.injEq .. ▸ Option.some.inj h
      subst h1; subst h2
      exact ⟨hinv.sSeen, hinv.seenReach,
        fun v hv w hw => hinv.scanned v hv (List.not_mem_nil v) w hw⟩
    | u :: qs, hinv =>
      rw [bfsLoop] at h
      exact ih _ _ _ (bfsClos_scan hinv) h

theorem bfsInv_seen_bound {g : Grf} {s : Nat} {q seen : List Nat}
    {prev : List (Nat × Nat)} (hinv : BfsInv g s q seen prev) :
    seen.length ≤ g.eds.length + 1 := by
  have hsub : seen.toFinset ⊆ {s} ∪ (targetsL g).toFinset := by
    intro v hv
    rw [List.mem_toFinset] at hv
    rcases hinv.seenValid v hv with h | h
    · rw [Finset.mem_union, Finset.mem_singleton]
      exact Or.inl h
    · rw [Finset.mem_union, List.mem_toFinset]
      exact Or.inr h
  calc seen.length = seen.toFinset.card :=
        (List.toFinset_card_of_nodup hinv.seenNodup).symm
    _ ≤ ({s} ∪ (targetsL g).toFinset : Finset Nat).card :=
        Finset.card_le_card hsub
    _ ≤ 1 + (targetsL g).toFinset.card := by
        have := Finset.card_union_le ({s} : Finset Nat) (targetsL g).toFinset
        simpa using this
    _ ≤ g.eds.length + 1 := by
        have h1 := List.toFinset_card_le (targetsL g)
        have h2 : (targetsL g).length = g.eds.length := by
          unfold targetsL
          rw [List.length_map]
        omega

theorem bfsLoop_total {g : Grf} {s : Nat} :
    ∀ (fuel : Nat) (q seen : List Nat) (prev : List (Nat × Nat)),
      BfsInv g s q seen prev →
      q.length + g.eds.length + 1 ≤ fuel + seen.length →
      (bfsLoop g fuel q seen prev).isSome := by
  intro fuel
  induction fuel with
  | zero =>
    intro q seen prev hinv hf
    have hb := bfsInv_seen_bound hinv
    have hq : q = [] := by
      have : q.length = 0 := by omega
      exact List.length_eq_zero.1 this
    subst hq
    rw [bfsLoop]
    simp
  | succ fuel ih =>
    intro q seen prev hinv hf
    match q with
    | [] =>
      rw [bfsLoop]
      simp
    | u :: qs =>
      rw [bfsLoop]
      obtain ⟨fresh, hq, hs, _, _, _, _, _, _⟩ :=
        bfsScan_shape u (g.outEdges u) qs seen prev
      apply ih
      · exact bfsInv_scan hinv
      · rw [hq, hs, List.length_append, List.length_append]
        simp only [List.length_cons] at hf
        omega

theorem bfsLoop_run (g : Grf) (s : Nat) :
    ∃ prevF seenF,
      bfsLoop g (g.eds.length + 1) [s] [s] [] = some (prevF, seenF) := by
  have h := bfsLoop_total (g.eds.length + 1) [s] [s] [] (bfsInv_init g s)
    (by simp; omega)
  obtain ⟨pr, hpr⟩ := Option.isSome_iff_exists.1 h
  exact ⟨pr.1, pr.2, by rw [hpr]⟩

/-- C6 (amended): the BFS of `find_path` does not stop early at the sink;
it runs until the frontier is exhausted, and the set of nodes it visits is
exactly the set of nodes reachable from the source through
positive-residual edges — independent of the sink. -/
theorem bfs_frontier_exhaustion (g : Grf) (s : Nat) :
    (∀ v ∈ g.bfsSeen s, Relation.ReflTransGen (ResStep g) s v) ∧
    (∀ v, Relation.ReflTransGen (ResStep g) s v → v ∈ g.bfsSeen s) := by
  obtain ⟨prevF, seenF, hrun⟩ := bfsLoop_run g s
  have hseen : g.bfsSeen s = seenF := by
    unfold Grf.bfsSeen
    rw [hrun]
  obtain ⟨hsF, hreach, hclos⟩ :=
    bfsClos_loop (g.eds.length + 1) [s] [s] [] (bfsClos_init g s) hrun
  rw [hseen]
  refine ⟨hreach, ?_⟩
  intro v hv
  induction hv with
  | refl => exact hsF
  | tail hr hstep ih => exact hclos _ ih _ hstep

/-- C6 counterexample: on the chain 0 → 1 → 2 with source 0 and sink 1,
the code's BFS visits three nodes while the specified early-stopping BFS
visits two, refuting "explores no further nodes once the sink has been
reached" (the reconstructed path happens to agree). -/
theorem find_path_explores_past_sink :
    chainG.bfsSeen 0 = [0, 1, 2] ∧
    bfsSeenEarly chainG 0 1 = [0, 1] ∧
    ¬ (chainG.bfsSeen 0).length ≤ (bfsSeenEarly chainG 0 1).length ∧
    chainG.find_path 0 1 = [0, 1] ∧
    findPathEarly chainG 0 1 = [0, 1] := by
  decide

/-- Witness for the amended C6 on the chain graph: node 2 is visited and
hence residually reachable, and the reachable node 1 is visited. -/
theorem bfs_frontier_exhaustion_witness :
    Relation.ReflTransGen (ResStep chainG) 0 2 ∧ 1 ∈ chainG.bfsSeen 0 := by
  constructor
  · exact (bfs_frontier_exhaustion chainG 0).1 2 (by decide)
  · refine (bfs_frontier_exhaustion chainG 0).2 1 ?_
    exact Relation.ReflTransGen.tail Relation.ReflTransGen.refl
      ⟨(0, 1, ⟨1, 0⟩), by decide, rfl, rfl, by decide⟩
